import Mathlib

/-!
Shallow embedding of the `nucleus` repository core (attachment extraction,
ranking/promotion, derived-view cache) and proofs about it.

Text is modelled as `List Char` with Python 2 byte-string semantics: the
default whitespace set of `str.strip` / regex `\S` is ASCII
space, tab, newline, carriage return, vertical tab and form feed.
-/

namespace Nucleus

/-- The Python 2 whitespace set used by `str.rstrip()` and by `\s` / `\S`. -/
def isPySpace (c : Char) : Bool :=
  c = ' ' || c = '\t' || c = '\n' || c = '\x0d' || c = '\x0b' || c = '\x0c'

/-- Regex `\w`: ASCII letters, digits and underscore. -/
def isWordChar (c : Char) : Bool :=
  ('a' ≤ c && c ≤ 'z') || ('A' ≤ c && c ≤ 'Z') || ('0' ≤ c && c ≤ '9') || c = '_'

/-- Python `s.rstrip()`: drop trailing whitespace. -/
def rstrip (l : List Char) : List Char :=
  (l.reverse.dropWhile isPySpace).reverse

/-- `startsWith needle hay` is true when `needle` is a prefix of `hay`. -/
def startsWith : List Char → List Char → Bool
  | [], _ => true
  | _ :: _, [] => false
  | a :: as, b :: bs => (a = b : Bool) && startsWith as bs

/-- Python `hay.index(needle)` / `hay.find(needle)`: index of the first
occurrence of `needle` as a substring of `hay`, `none` when absent
(`str.index` raises `ValueError` then). -/
def firstIdx (needle : List Char) : List Char → Option Nat
  | [] => if needle = [] then some 0 else none
  | c :: rest =>
    if startsWith needle (c :: rest) then some 0
    else (firstIdx needle rest).map (· + 1)

/-- One step of Python `hay.replace(needle, "")`: `k` counts characters still
to be skipped because they belong to an occurrence already matched. -/
def replaceAux (needle : List Char) : List Char → Nat → List Char
  | [], _ => []
  | _ :: rest, k + 1 => replaceAux needle rest k
  | c :: rest, 0 =>
    if startsWith needle (c :: rest) then replaceAux needle rest (needle.length - 1)
    else c :: replaceAux needle rest 0

/-- Python `hay.replace(needle, "")` (for a nonempty `needle`): remove all
non-overlapping occurrences, scanning left to right. -/
def replaceAll (needle hay : List Char) : List Char :=
  replaceAux needle hay 0

/-- Greedy capture of at most `n` further non-whitespace characters, returning
the captured run and the remaining text.  This is the `[\S]{1,32}` /
`[\S]{3,80}` part of the tag and mention regexes. -/
def splitTag : List Char → Nat → List Char × List Char
  | l, 0 => ([], l)
  | [], _ + 1 => ([], [])
  | c :: rest, n + 1 =>
    if isPySpace c then ([], c :: rest)
    else
      let p := splitTag rest n
      (c :: p.1, p.2)

/-- `re.findall("#([\\S]{1,32})", text)`: scan left to right; at each `#` not
inside a previous match, greedily capture 1–32 non-whitespace characters and
resume after the match.  The skip counter `k` tracks characters belonging to
the match just emitted. -/
def scanTags : List Char → Nat → List (List Char)
  | [], _ => []
  | _ :: rest, k + 1 => scanTags rest k
  | c :: rest, 0 =>
    if c = '#' then
      match splitTag rest 32 with
      | ([], _) => scanTags rest 0
      | (t, _) => t :: scanTags rest t.length
    else scanTags rest 0

/-- All tags of a text in first-occurrence (textual) order. -/
def findTagsScan (l : List Char) : List (List Char) :=
  scanTags l 0

/-- The tag-stripping loop of `helpers.find_tags`: for each tag (the caller
passes them in reverse textual order), if the first occurrence of the tag text
ends exactly at the trimmed end of the running text, remove every occurrence
of `"#" ++ tag`.  `none` models the uncaught `ValueError` of `str.index` when
the tag text is absent. -/
def tagStrip : List (List Char) → List Char → Option (List Char)
  | [], t => some t
  | tag :: more, t =>
    match firstIdx tag t with
    | none => none
    | some i =>
      let t' := if i + tag.length = (rstrip t).length then replaceAll ('#' :: tag) t else t
      tagStrip more t'

/-- `helpers.find_tags` (src/nucleus/helpers.py:90-112).  Returns the reversed
match list `rv = re.findall(expr, text)[::-1]` together with the text after
tail-stripping; if the stripped text is empty the original text is returned. -/
def find_tags (text : List Char) : Option (List (List Char) × List Char) :=
  let rv := (findTagsScan text).reverse
  match tagStrip rv text with
  | none => none
  | some tn => some (rv, if 0 < tn.length then tn else text)

/-- `re.findall("@([\\S]{3,80})", text)`: the mention scanner's match list
(`helpers.find_mentions`, src/nucleus/helpers.py:65-87). -/
def scanMentions : List Char → Nat → List (List Char)
  | [], _ => []
  | _ :: rest, k + 1 => scanMentions rest k
  | c :: rest, 0 =>
    if c = '@' then
      let p := splitTag rest 80
      if p.1.length < 3 then scanMentions rest 0
      else p.1 :: scanMentions rest p.1.length
    else scanMentions rest 0

/-- `helpers.find_mentions`: look up each mention text with the identity
store (modelled as an oracle `Identity.query.filter_by(username=...)`), keep
the resolved ones, drop (and log) the rest.  The input text is not mutated. -/
def find_mentions (idOracle : List Char → Option Nat) (text : List Char) :
    List (List Char × Nat) :=
  (scanMentions text 0).filterMap fun m => (idOracle m).map fun i => (m, i)

/-- Maximal runs of non-whitespace characters of a text. -/
def splitRuns : List Char → List (List Char)
  | [] => []
  | [c] => if isPySpace c then [] else [[c]]
  | c :: d :: rest =>
    let rs := splitRuns (d :: rest)
    if isPySpace c then rs
    else if isPySpace d then [c] :: rs
    else
      match rs with
      | r :: rs' => (c :: r) :: rs'
      | [] => [[c]]

/-- Inner test of `hasLinkShape`: some `'.'` here is followed by at least two
`\w` characters. -/
def hasDotWW : List Char → Bool
  | c :: a :: b :: rest => (c = '.' && isWordChar a && isWordChar b) || hasDotWW (a :: b :: rest)
  | _ => false

/-- Whether a whitespace-free run matches `((?:https?://)?\S+\.\w{2,3}\S*)`:
the regex matches (and then consumes the whole run) exactly when the run has a
`'.'` at position ≥ 1 followed by at least two `\w` characters. -/
def hasLinkShape (run : List Char) : Bool :=
  match run with
  | [] => false
  | _ :: rest => hasDotWW rest

/-- `re.findall("((?:https?://)?\\S+\\.\\w{2,3}\\S*)", text)`: each matching
candidate is a full non-whitespace run of the text
(src/nucleus/helpers.py:33-37). -/
def linkCandidates (text : List Char) : List (List Char) :=
  (splitRuns text).filter hasLinkShape

/-- `c_schemed`: prepend `"http://"` unless the first four characters are
`"http"` (src/nucleus/helpers.py:41-44). -/
def schemedC (c : List Char) : List Char :=
  if c.take 4 = ['h', 't', 't', 'p'] then c else ['h','t','t','p',':','/','/'] ++ c

/-- A `requests.head` response: status code, optional `content-type` header
and the final URL of the response object. -/
structure HeadResp where
  status : Nat
  contentType : Option (List Char)
  url : List Char
deriving DecidableEq

/-- Outcome of one `requests.head(c_schemed, timeout=3.0)` call: either one of
the caught exceptions (`requests.exceptions.RequestException`, `ValueError`)
or a response. -/
inductive HeadOutcome
  | exc
  | resp (r : HeadResp)
deriving DecidableEq

/-- The candidate loop of `helpers.find_links` (src/nucleus/helpers.py:40-61),
processing `candidates[::-1]`.  State: the `rejects` set (URLs whose check
raised), the accepted responses `rv` (in acceptance order), the running text,
and a ghost log `checked` of the URLs HEAD-checked so far.  The first
component is `none` when `text.index(c)` would raise (an uncaught
`ValueError`); `requests.Response` truthiness is `status_code < 400`, so the
acceptance test `res and res.status_code < 400` is `status < 400`. -/
def linkLoop (oracle : List Char → HeadOutcome) :
    List (List Char) → List (List Char) → List HeadResp → List Char →
    List (List Char) → Option (List HeadResp × List Char) × List (List Char)
  | [], _, rv, text, checked => (some (rv, text), checked)
  | c :: cs, rejects, rv, text, checked =>
    let cSch := schemedC c
    if cSch ∈ rejects then linkLoop oracle cs rejects rv text checked
    else
      match oracle cSch with
      | .exc => linkLoop oracle cs (cSch :: rejects) rv text (checked ++ [cSch])
      | .resp r =>
        if r.status < 400 then
          match firstIdx c text with
          | none => (none, checked ++ [cSch])
          | some i =>
            let text' := if i + c.length = (rstrip text).length then replaceAll c text else text
            linkLoop oracle cs rejects (rv ++ [r]) text' (checked ++ [cSch])
        else linkLoop oracle cs rejects rv text (checked ++ [cSch])

/-- `helpers.find_links` (src/nucleus/helpers.py:19-62) with the HEAD request
modelled as an oracle.  Returns the accepted responses and the text with an
accepted trailing link removed, plus the ghost log of HEAD-checked URLs. -/
def find_links (oracle : List Char → HeadOutcome) (text : List Char) :
    Option (List HeadResp × List Char) × List (List Char) :=
  linkLoop oracle (linkCandidates text).reverse [] [] text []

/-- Association-list lookup (used for stores and caches). -/
def alookup {α β : Type} [DecidableEq α] (k : α) : List (α × β) → Option β
  | [] => none
  | (a, b) :: rest => if a = k then some b else alookup k rest

/-- The persistent percept store: a fresh-id counter plus the stored
`LinkPercept` and `LinkedPicturePercept` rows keyed by canonical URL, and the
titles set on link percepts.  A stored instance is identified by its id. -/
structure PerceptStore where
  nextId : Nat
  linkIds : List (List Char × Nat)
  picIds : List (List Char × Nat)
  linkTitles : List (Nat × List Char)
deriving DecidableEq

/-- A percept object produced by one extraction run, identified by the id of
the (stored or transient) instance. -/
inductive Percept
  | tag (id : Nat) (title : List Char)
  | mention (id : Nat) (identity : Nat) (text : List Char)
  | link (id : Nat)
  | pic (id : Nat)
deriving DecidableEq

/-- Result of the external page extractor `Goose().extract(url)`. -/
structure Page where
  title : List Char
  cleanedText : List Char
deriving DecidableEq

/-- Failures that escape `process_attachments` to its caller: an uncaught
`ValueError` from `str.index`, or a failure inside the metadata fetch
`g.extract(url=link.url)` (which the code does not guard). -/
inductive PAErr
  | indexErr
  | gooseErr
deriving DecidableEq

/-- Modelled from the spec: `content.LinkPercept.get_or_create` is not under
`src/` (only its caller `helpers.process_attachments` is).  Per spec §3/§5 it
is an atomic get-or-create keyed on the canonical URL: return the stored
percept for the URL when present, otherwise create a new row.  Returns the
instance id, whether the instance is newly created (transient), and the
updated store. -/
def linkGetOrCreate (url : List Char) (s : PerceptStore) : Nat × Bool × PerceptStore :=
  match alookup url s.linkIds with
  | some i => (i, false, s)
  | none => (s.nextId, true,
      { s with nextId := s.nextId + 1, linkIds := (url, s.nextId) :: s.linkIds })

/-- Modelled from the spec: `content.LinkedPicturePercept.get_or_create` is
not under `src/`; same get-or-create contract keyed by URL. -/
def picGetOrCreate (url : List Char) (s : PerceptStore) : Nat × Bool × PerceptStore :=
  match alookup url s.picIds with
  | some i => (i, false, s)
  | none => (s.nextId, true,
      { s with nextId := s.nextId + 1, picIds := (url, s.nextId) :: s.picIds })

/-- `content.TagPercept(title=tag)` is a plain constructor call
(src/nucleus/helpers.py:138): it allocates a new transient instance every
time, it is not a get-or-create. -/
def newTagPercept (title : List Char) (s : PerceptStore) : Percept × PerceptStore :=
  (Percept.tag s.nextId title, { s with nextId := s.nextId + 1 })

/-- `content.Mention(identity=ident, text=mention_text)`: likewise a plain
constructor call; mentions are never deduplicated. -/
def newMention (ident : Nat) (txt : List Char) (s : PerceptStore) : Percept × PerceptStore :=
  (Percept.mention s.nextId ident txt, { s with nextId := s.nextId + 1 })

/-- The tag loop of `process_attachments` (src/nucleus/helpers.py:136-139). -/
def tagLoop : List (List Char) → PerceptStore → List Percept × PerceptStore
  | [], s => ([], s)
  | t :: ts, s =>
    let p := newTagPercept t s
    let r := tagLoop ts p.2
    (p.1 :: r.1, r.2)

/-- The mention loop of `process_attachments` (src/nucleus/helpers.py:141-144). -/
def mentionLoop : List (List Char × Nat) → PerceptStore → List Percept × PerceptStore
  | [], s => ([], s)
  | (txt, ident) :: ms, s =>
    let p := newMention ident txt s
    let r := mentionLoop ms p.2
    (p.1 :: r.1, r.2)

/-- Python `url[(url.rfind('/') + 1):]`: the part after the last `'/'` (the
whole string when there is none). -/
def tailSeg (u : List Char) : List Char :=
  (u.reverse.takeWhile (fun c => ¬ c = '/')).reverse

/-- The link loop of `process_attachments` (src/nucleus/helpers.py:146-174):
image links go through `LinkedPicturePercept.get_or_create` with a filename
fallback message; other links go through `LinkPercept.get_or_create`, then
`g.extract` fetches metadata (unguarded: a failure propagates), the title is
set when the percept is transient, long article text is a disabled no-op, and
an empty message falls back to the page title. -/
def linkPerceptLoop (goose : List Char → Except Unit Page) :
    List HeadResp → List Char → PerceptStore →
    Except PAErr (List Char × List Percept × PerceptStore)
  | [], text, s => .ok (text, [], s)
  | l :: ls, text, s =>
    if (l.contentType.map (fun ct => ct.take 5)) = some ['i','m','a','g','e'] then
      let g := picGetOrCreate l.url s
      let text' := if text.length = 0 then tailSeg l.url else text
      match linkPerceptLoop goose ls text' g.2.2 with
      | .error e => .error e
      | .ok (t, ps, s') => .ok (t, Percept.pic g.1 :: ps, s')
    else
      let g := linkGetOrCreate l.url s
      match goose l.url with
      | .error _ => .error .gooseErr
      | .ok page =>
        let s1 := if g.2.1 then
            { g.2.2 with linkTitles := (g.1, page.title) :: g.2.2.linkTitles }
          else g.2.2
        let text' := if text.length = 0 then page.title else text
        match linkPerceptLoop goose ls text' s1 with
        | .error e => .error e
        | .ok (t, ps, s') => .ok (t, Percept.link g.1 :: ps, s')

/-- `helpers.process_attachments` (src/nucleus/helpers.py:115-176): tags →
mentions → links, threading the text; returns the final message and the
percepts of the run. -/
def processAttachments (idO : List Char → Option Nat) (headO : List Char → HeadOutcome)
    (goose : List Char → Except Unit Page) (s0 : PerceptStore) (text0 : List Char) :
    Except PAErr (List Char × List Percept × PerceptStore) :=
  match find_tags text0 with
  | none => .error .indexErr
  | some (tags, text1) =>
    let tr := tagLoop tags s0
    let mr := mentionLoop (find_mentions idO text1) tr.2
    match (find_links headO text1).1 with
    | none => .error .indexErr
    | some (links, text2) =>
      match linkPerceptLoop goose links text2 mr.2 with
      | .error e => .error e
      | .ok (text3, linkPs, s3) => .ok (text3, tr.1 ++ mr.1 ++ linkPs, s3)

/-- Python `int()` applied to a (real-modelled) float: truncation toward
zero.  Float rounding of the source is modelled by exact real arithmetic; the
claims' quantities sit far from integer boundaries. -/
noncomputable def pyInt (x : ℝ) : ℤ :=
  if 0 ≤ x then ⌊x⌋ else -⌊-x⌋

/-- The inner expression of `Movement.required_votes`:
`c / 100.0 + 0.8 / c + log(c, 1.65)`; two-argument `math.log` is
`log c / log 1.65`. -/
noncomputable def voteExpr (c : ℝ) : ℝ :=
  c / 100 + 0.8 / c + Real.log c / Real.log 1.65

/-- `Movement.required_votes` (src/nucleus/identity.py:762-774):
`int(c / 100.0 + 0.8 / c + log(c, 1.65)) if c > 0 else 1`. -/
noncomputable def requiredVotesFormula (c : Nat) : ℤ :=
  if 0 < c then pyInt (voteExpr c) else 1

/-- The spec's reading of the same threshold: `floor(c/100 + 0.8/c +
log_base_1.65(c))`, defined as `1` when `c == 0` (spec §4.6). -/
noncomputable def requiredVotesSpec (c : Nat) : ℤ :=
  if c = 0 then 1 else ⌊voteExpr c⌋

/-- `helpers.epoch_seconds` (src/nucleus/helpers.py:13-14): seconds since the
Unix epoch shifted by the fixed constant 1356048000; datetimes are modelled
as rational second counts. -/
def epochSeconds (t : ℚ) : ℚ := t - 1356048000

/-- Modelled from the spec: `content.Thought.hot` is not under `src/` (only
its test `src/tests/test_content.py::test_hot` is).  Spec §4.5 requires a
monotonically time-decaying function of vote count and age based on
`helpers.epoch_seconds`, with score exactly 0 at zero votes, strictly higher
score for more votes, and — per the src test ordering `h1 = 0 < h2` and
`h3 < h2` for two reads without a state change — a value that decays with the
evaluation instant.  Modelled as upvote count divided by the shifted epoch
seconds of the evaluation instant. -/
def hot (upvotes : Nat) (t : ℚ) : ℚ :=
  (upvotes : ℚ) / epochSeconds t

/-- Kind discriminator of a `Mindset` container. -/
inductive MindsetKind
  | mindspace
  | blogKind
  | dialogue
deriving DecidableEq

/-- A content collection (`context.Mindset`). -/
structure MindsetD where
  id : Nat
  kind : MindsetKind
deriving DecidableEq

/-- An upvote-kind child node. -/
structure UpvoteD where
  id : Nat
  authorId : Nat
  state : ℤ
deriving DecidableEq

/-- A content node (`content.Thought`) as `Movement.promotion_check` sees it:
`_blogged` is the already-promoted flag, `upvotes` the value of
`upvote_count()` (modelled from the spec as the count of active upvote
children, `content.py` being absent from `src/`). -/
structure ThoughtD where
  id : Nat
  authorId : Nat
  text : List Char
  mindset : Option MindsetD
  blogged : Bool
  upvotes : Nat
  children : List UpvoteD
  parentId : Option Nat
  created : ℚ
deriving DecidableEq

/-- A movement as the promotion engine sees it: `memberCount` is the value of
`member_count()` (count of active members, src/nucleus/identity.py:698-712). -/
structure MovementD where
  id : Nat
  memberCount : Nat
  mindspace : MindsetD
  blogMs : MindsetD
deriving DecidableEq

/-- `Movement.required_votes` evaluated on the movement's member count. -/
noncomputable def MovementD.requiredVotes (m : MovementD) : ℤ :=
  requiredVotesFormula m.memberCount

/-- Modelled from the spec: `content.Thought.clone` is not under `src/`.  Per
spec §4.6 and `src/tests/test_content.py::test_clone`: a new ContentNode with
a new identifier and a later timestamp, sharing the text, authored by the
given identity, parented to the original and placed in the given mindset. -/
def thoughtClone (t : ThoughtD) (authorId : Nat) (ms : MindsetD) (newId : Nat) (now : ℚ) :
    ThoughtD :=
  { id := newId, authorId := authorId, text := t.text, mindset := some ms,
    blogged := false, upvotes := 0, children := [], parentId := some t.id, created := now }

/-- `Movement.promotion_check` (src/nucleus/identity.py:728-751): when the
thought is not yet `_blogged` and sits in a mindset whose kind is
`"mindspace"`, and its upvote count reaches `required_votes()`, clone it into
the movement's blog, append an upvote authored by the movement to the clone,
set `_blogged` on the original and return the clone; otherwise return `None`.
The pair is (returned clone, thought after the call). -/
noncomputable def MovementD.promotionCheck (self : MovementD) (t : ThoughtD)
    (cloneId upvoteId : Nat) (now : ℚ) : Option ThoughtD × ThoughtD :=
  match t.blogged, t.mindset with
  | false, some ms =>
    if ms.kind = MindsetKind.mindspace then
      if self.requiredVotes ≤ (t.upvotes : ℤ) then
        let clone := thoughtClone t self.id self.blogMs cloneId now
        let clone' := { clone with children := clone.children ++ [⟨upvoteId, self.id, 0⟩] }
        (some clone', { t with blogged := true })
      else (none, t)
    else (none, t)
  | _, _ => (none, t)

/-- A `MovementMemberAssociation` row (src/nucleus/identity.py:505-528). -/
structure MMA where
  personaId : Nat
  movementId : Nat
  active : Bool
  role : List Char
  invitationCode : Option (List Char)
deriving DecidableEq

/-- The movement attributes `toggle_movement_membership` and `movements`
read; `username` is the sort key of `order_by(Movement.username)`, modelled
as a number. -/
structure MovementRec where
  id : Nat
  username : Nat
  adminId : Nat
  isPrivate : Bool
deriving DecidableEq

/-- The memoized entries relevant here, keyed as `cache.memoize` keys them:
`member_count` by the movement, `movements` / `repost_mindsets` /
`frontpage_sources` by the persona instance the method is bound to. -/
structure CacheState where
  memberCountC : List (Nat × Nat)
  movementsC : List (Nat × List (Nat × Nat))
  repostC : List (Nat × List Nat)
  frontpageC : List (Nat × List Nat)
deriving DecidableEq

/-- The state a membership toggle touches: association rows, the movement
table, the `blogs_followed` edges, the cache and the ambient
`current_user.active_persona`. -/
structure IdentState where
  mmas : List MMA
  registry : List MovementRec
  blogsFollowed : List (Nat × Nat)
  cache : CacheState
  currentActive : Nat
deriving DecidableEq

/-- `cache.delete_memoized` for one persona-keyed entry. -/
def adel {β : Type} (k : Nat) (l : List (Nat × β)) : List (Nat × β) :=
  l.filter fun p => ¬ p.1 = k

/-- Errors `toggle_movement_membership` can raise: `UnauthorizedError` for an
invalid invitation code, `NotImplementedError` when the admin tries to
leave. -/
inductive ToggleErr
  | unauthorized
  | notImplemented
deriving DecidableEq

/-- `Persona.toggle_following` (src/nucleus/identity.py:417-437): remove the
edge if present else add it, then delete the follower's memoized
`frontpage_sources`.  Returns the new following flag and state. -/
def toggleFollowing (selfId identId : Nat) (s : IdentState) : Bool × IdentState :=
  let pair := (selfId, identId)
  let s' : List (Nat × Nat) → IdentState := fun bf =>
    { s with
      blogsFollowed := bf
      cache := { s.cache with frontpageC := adel selfId s.cache.frontpageC } }
  if pair ∈ s.blogsFollowed then (false, s' (s.blogsFollowed.erase pair))
  else (true, s' (s.blogsFollowed ++ [pair]))

/-- The filter of `filter_by(movement=movement).filter_by(persona=self)`. -/
def pairPred (selfId movementId : Nat) (a : MMA) : Bool :=
  a.movementId = movementId && a.personaId = selfId

/-- Replace the first element satisfying `p` by its image under `f`
(the in-place mutation of the queried row). -/
def updateFirst {α : Type} (p : α → Bool) (f : α → α) : List α → List α
  | [] => []
  | a :: rest => if p a then f a :: rest else a :: updateFirst p f rest

/-- Delete the four memoized entries reset at the end of
`toggle_movement_membership` (src/nucleus/identity.py:496-500):
`movement.member_count`, `self.movements`, `self.repost_mindsets`,
`self.frontpage_sources`. -/
def delToggleCaches (selfId movementId : Nat) (c : CacheState) : CacheState :=
  { memberCountC := adel movementId c.memberCountC,
    movementsC := adel selfId c.movementsC,
    repostC := adel selfId c.repostC,
    frontpageC := adel selfId c.frontpageC }

/-- The association lookup of `toggle_movement_membership`: by invitation
code when a nonempty one is given (`filter_by(invitation_code=...)`, over all
rows), else by the (movement, persona) pair. -/
def mmaLookupPred (selfId movId : Nat) (invitationCode : Option (List Char)) : MMA → Bool :=
  match invitationCode with
  | some code =>
    if 0 < code.length then fun a => a.invitationCode = some code
    else pairPred selfId movId
  | none => pairPred selfId movId

/-- The `mma is None or not mma.active` test (joining vs. leaving). -/
def mmaMissingOrInactive : Option MMA → Bool
  | none => true
  | some a => ¬ a.active

/-- The `mma is None or (mma.active is False and mma.invitation_code !=
invitation_code)` test guarding the invitation validation. -/
def mmaBadCode (invitationCode : Option (List Char)) : Option MMA → Bool
  | none => true
  | some a => ¬ a.active && ¬ a.invitationCode = invitationCode

/-- `Persona.toggle_movement_membership` (src/nucleus/identity.py:439-502).
The association is looked up with `mmaLookupPred`; joining follows the
movement; a private movement rejects a bad code unless the active persona is
the admin; then the association is created, re-enabled, or disabled
("left"), the four memoized entries are deleted and the association
returned.  State mutations made before a raise persist (the session is not
rolled back here). -/
def toggleMovementMembership (selfId : Nat) (mov : MovementRec) (role : List Char)
    (invitationCode : Option (List Char)) (s : IdentState) :
    IdentState × Except ToggleErr MMA :=
  let q : MMA → Bool := mmaLookupPred selfId mov.id invitationCode
  let mma0 := s.mmas.find? q
  let s1 := if (selfId, mov.id) ∉ s.blogsFollowed ∧ mmaMissingOrInactive mma0 then
      (toggleFollowing selfId mov.id s).2
    else s
  if mmaBadCode invitationCode mma0 ∧ mov.isPrivate ∧ ¬ s1.currentActive = mov.adminId then
    (s1, .error .unauthorized)
  else
    match mma0 with
    | none =>
      let newMma : MMA :=
        { personaId := selfId, movementId := mov.id, active := true,
          role := role, invitationCode := none }
      ({ s1 with
         mmas := s1.mmas ++ [newMma]
         cache := delToggleCaches selfId mov.id s1.cache }, .ok newMma)
    | some a =>
      if a.active = false then
        let a' := { a with active := true, role := role }
        ({ s1 with
           mmas := updateFirst q (fun b => { b with active := true, role := role }) s1.mmas
           cache := delToggleCaches selfId mov.id s1.cache }, .ok a')
      else if selfId = mov.adminId then (s1, .error .notImplemented)
      else
        let a' := { a with active := false, role := ['l','e','f','t'] }
        ({ s1 with
           mmas := updateFirst q (fun b => { b with active := false, role := ['l','e','f','t'] }) s1.mmas
           cache := delToggleCaches selfId mov.id s1.cache }, .ok a')

/-- Whether some association row makes `pid` an active member of `mid`. -/
def activeMember (mmas : List MMA) (pid mid : Nat) : Bool :=
  mmas.any fun a => pairPred pid mid a && a.active

/-- Ordering of the movement list: `order_by(Movement.username)`. -/
def byUsername (a b : Nat × Nat) : Prop := a.2 ≤ b.2

instance : DecidableRel byUsername := fun a b => Nat.decLe a.2 b.2

/-- The query body of `Persona.movements` (src/nucleus/identity.py:364-382):
movements with an active association of `current_user.active_persona` —
note: of the ambient active persona, not of the persona the method is bound
to — ordered by username, as (id, username) rows. -/
def movementsCompute (s : IdentState) : List (Nat × Nat) :=
  List.insertionSort byUsername
    ((s.registry.filter fun m => activeMember s.mmas s.currentActive m.id).map
      fun m => (m.id, m.username))

/-- `Persona.movements` through `cache.memoize`: the key derives from the
persona instance `selfId`; on a miss the query body runs and the result is
stored under that key. -/
def movementsRead (selfId : Nat) (s : IdentState) : List (Nat × Nat) × IdentState :=
  match alookup selfId s.cache.movementsC with
  | some v => (v, s)
  | none =>
    let v := movementsCompute s
    (v, { s with cache := { s.cache with movementsC := (selfId, v) :: s.cache.movementsC } })

/-- First-occurrence deduplication of the schemed candidate URLs against a
set of already-seen URLs: the HEAD-check log `find_links` produces when every
check raises (each distinct normalized URL is attempted exactly once). -/
def dedupAux : List (List Char) → List (List Char) → List (List Char)
  | [], _ => []
  | c :: cs, seen =>
    if schemedC c ∈ seen then dedupAux cs seen
    else schemedC c :: dedupAux cs (schemedC c :: seen)

/-- A token the tag regex captures whole: nonempty, at most 32 characters,
no whitespace, and no `'#'` inside (so occurrence reasoning is
unambiguous). -/
def validTag (x : List Char) : Prop :=
  x ≠ [] ∧ x.length ≤ 32 ∧ (∀ c ∈ x, isPySpace c = false) ∧ '#' ∉ x

/-- A sample public movement (id 10, username key 77, admin persona 99). -/
def exMovement : MovementRec := ⟨10, 77, 99, false⟩

/-- A sample state: persona 2 is an active member of movement 10 and is the
ambient `current_user.active_persona`; persona 1 is not a member; the cache
is empty. -/
def exState : IdentState :=
  { mmas := [⟨2, 10, true, ['m'], none⟩], registry := [exMovement],
    blogsFollowed := [], cache := ⟨[], [], [], []⟩, currentActive := 2 }

/-- A sample state before persona 1 joins movement 10: no associations, and
stale cached entries for the member count, persona 1's movement list,
repost targets and frontpage sources. -/
def exJoinState : IdentState :=
  { mmas := [], registry := [exMovement], blogsFollowed := [],
    cache := ⟨[(10, 3)], [(1, [(5, 5)])], [(1, [1])], [(1, [2])]⟩, currentActive := 1 }

/-! ### Lemmas about the promotion threshold -/

theorem pyInt_eq_floor {x : ℝ} (h : 0 ≤ x) : pyInt x = ⌊x⌋ := by
  simp [pyInt, h]

theorem voteExpr_nonneg {c : ℝ} (h : 1 ≤ c) : 0 ≤ voteExpr c := by
  have hc : 0 < c := lt_of_lt_of_le one_pos h
  have h1 : 0 ≤ c / 100 := by positivity
  have h2 : 0 ≤ (0.8 : ℝ) / c := by positivity
  have h3 : 0 ≤ Real.log c / Real.log 1.65 := by
    have := Real.log_nonneg h
    have hl : 0 < Real.log 1.65 := Real.log_pos (by norm_num)
    positivity
  simp only [voteExpr]
  linarith

theorem voteExpr_mono {a b : ℝ} (ha : 1 ≤ a) (hab : 1.65 * a ≤ b) :
    voteExpr a ≤ voteExpr b := by
  have ha0 : 0 < a := lt_of_lt_of_le one_pos ha
  have hb0 : 0 < b := lt_of_lt_of_le (by linarith) hab
  have hl : 0 < Real.log 1.65 := Real.log_pos (by norm_num)
  have hlog : Real.log 1.65 + Real.log a ≤ Real.log b := by
    have h1 : Real.log (1.65 * a) ≤ Real.log b := Real.log_le_log (by positivity) hab
    rwa [Real.log_mul (by norm_num) (ne_of_gt ha0)] at h1
  have hdiv : Real.log a / Real.log 1.65 + 1 ≤ Real.log b / Real.log 1.65 := by
    have h2 : (Real.log a + Real.log 1.65) / Real.log 1.65 ≤ Real.log b / Real.log 1.65 :=
      (div_le_div_iff_of_pos_right hl).mpr (by linarith)
    rwa [add_div, div_self (ne_of_gt hl)] at h2
  have hda : (0.8 : ℝ) / a ≤ 0.8 := by
    rw [div_le_iff₀ ha0]; nlinarith
  have hdb : 0 ≤ (0.8 : ℝ) / b := by positivity
  have hab' : a ≤ b := by nlinarith
  simp only [voteExpr]
  have h100 : a / 100 ≤ b / 100 := by linarith
  linarith

theorem requiredVotes_eq_spec (c : Nat) : requiredVotesFormula c = requiredVotesSpec c := by
  rcases Nat.eq_zero_or_pos c with h | h
  · subst h; simp [requiredVotesFormula, requiredVotesSpec]
  · have h1 : (1 : ℝ) ≤ (c : ℝ) := by exact_mod_cast h
    simp only [requiredVotesFormula, requiredVotesSpec, if_pos h,
      if_neg (Nat.pos_iff_ne_zero.mp h)]
    exact pyInt_eq_floor (voteExpr_nonneg h1)

theorem requiredVotes_mono_pair {a b : Nat} (ha : 1 ≤ a) (hab : (1.65 : ℝ) * a ≤ b) :
    requiredVotesFormula a ≤ requiredVotesFormula b := by
  have ha1 : (1 : ℝ) ≤ (a : ℝ) := by exact_mod_cast ha
  have hb1 : (1 : ℝ) ≤ (b : ℝ) := by nlinarith
  have hb : 1 ≤ b := by exact_mod_cast hb1
  simp only [requiredVotesFormula, if_pos (Nat.lt_of_lt_of_le Nat.zero_lt_one ha),
    if_pos (Nat.lt_of_lt_of_le Nat.zero_lt_one hb),
    pyInt_eq_floor (voteExpr_nonneg ha1), pyInt_eq_floor (voteExpr_nonneg hb1)]
  exact Int.floor_le_floor (voteExpr_mono ha1 hab)

/-- C2: for every movement, `required_votes` equals
`floor(c/100 + 0.8/c + log_base_1.65 c)` over the member count `c`, equals 1
at `c = 0`, and is non-decreasing over `c ∈ {1, 2, 5, 10, 50, 100, 500}`. -/
theorem C2_required_votes :
    (∀ c : Nat, requiredVotesFormula c = requiredVotesSpec c)
    ∧ (∀ m : MovementD, m.requiredVotes = requiredVotesSpec m.memberCount)
    ∧ requiredVotesFormula 0 = 1
    ∧ (requiredVotesFormula 1 ≤ requiredVotesFormula 2
      ∧ requiredVotesFormula 2 ≤ requiredVotesFormula 5
      ∧ requiredVotesFormula 5 ≤ requiredVotesFormula 10
      ∧ requiredVotesFormula 10 ≤ requiredVotesFormula 50
      ∧ requiredVotesFormula 50 ≤ requiredVotesFormula 100
      ∧ requiredVotesFormula 100 ≤ requiredVotesFormula 500) := by
  refine ⟨requiredVotes_eq_spec, fun m => requiredVotes_eq_spec m.memberCount,
    by simp [requiredVotesFormula], ?_, ?_, ?_, ?_, ?_, ?_⟩
  · exact requiredVotes_mono_pair (by norm_num) (by norm_num)
  · exact requiredVotes_mono_pair (by norm_num) (by norm_num)
  · exact requiredVotes_mono_pair (by norm_num) (by norm_num)
  · exact requiredVotes_mono_pair (by norm_num) (by norm_num)
  · exact requiredVotes_mono_pair (by norm_num) (by norm_num)
  · exact requiredVotes_mono_pair (by norm_num) (by norm_num)

/-! ### Hot score (C6) -/

/-- C6 counterexample: the claim that two evaluations of `hot` with no state
change in between return the same value is false — the src test
`test_content.py::test_hot` asserts `h3 < h2` for two consecutive reads, and
evaluating the modelled `hot` of a node with one upvote at two instants one
second apart gives different values. -/
theorem C6_hot_counterexample : hot 1 1356048001 ≠ hot 1 1356048002 := by
  norm_num [hot, epochSeconds]

/-- C6 amended: `hot` is exactly 0 for a node with zero votes; one more
upvote strictly increases it (at any evaluation instant past the reference
epoch); but two evaluations without a state change do not return the same
value — the score strictly decays as the evaluation instant grows, matching
`test_hot`'s `h1 = 0 < h2` and `h3 < h2`. -/
theorem C6_hot_amended :
    (∀ t : ℚ, hot 0 t = 0)
    ∧ (∀ (n : Nat) (t : ℚ), 0 < epochSeconds t → hot n t < hot (n + 1) t)
    ∧ (∀ (n : Nat) (t₁ t₂ : ℚ), 0 < n → 0 < epochSeconds t₁ →
        epochSeconds t₁ < epochSeconds t₂ → hot n t₂ < hot n t₁) := by
  refine ⟨fun t => by simp [hot], fun n t ht => ?_, fun n t₁ t₂ hn h₁ h₂ => ?_⟩
  · have hlt : (n : ℚ) < ((n + 1 : Nat) : ℚ) := by push_cast; linarith
    exact div_lt_div_of_pos_right hlt ht
  · have hn' : (0 : ℚ) < (n : ℚ) := by exact_mod_cast hn
    exact div_lt_div_of_pos_left hn' h₁ h₂

/-- Witness for C6 amended at a concrete node: a zero-vote node scores 0, an
upvote strictly raises the score, and a later second read is strictly
smaller. -/
theorem C6_hot_witness :
    hot 0 1356048001 = 0
    ∧ hot 0 1356048001 < hot 1 1356048001
    ∧ hot 1 1356048002 < hot 1 1356048001 := by
  refine ⟨C6_hot_amended.1 1356048001, ?_, ?_⟩
  · exact C6_hot_amended.2.1 0 1356048001 (by norm_num [epochSeconds])
  · exact C6_hot_amended.2.2 1 1356048001 1356048002 (by norm_num)
      (by norm_num [epochSeconds]) (by norm_num [epochSeconds])

/-! ### Promotion check (C1) -/

theorem requiredVotesFormula_zero : requiredVotesFormula 0 = 1 := by
  simp [requiredVotesFormula]

/-- C1 counterexample: `promotion_check` does not require the thought's
container to be the movement's own mindspace collection — it only tests
`thought.mindset.kind == "mindspace"`.  With a zero-member movement (so
`required_votes() == 1`) and a one-upvote thought sitting in a *different*
mindspace-kind collection (id 5, not the movement's mindspace id 1), the
promotion still fires. -/
theorem C1_promotion_counterexample :
    (((⟨7, 0, ⟨1, MindsetKind.mindspace⟩, ⟨2, MindsetKind.blogKind⟩⟩ : MovementD).promotionCheck
        ⟨40, 3, [], some ⟨5, MindsetKind.mindspace⟩, false, 1, [], none, 0⟩ 100 101 0).1).isSome = true
    ∧ (⟨40, 3, [], some ⟨5, MindsetKind.mindspace⟩, false, 1, [], none, 0⟩ : ThoughtD).mindset
      ≠ some (⟨1, MindsetKind.mindspace⟩ : MindsetD) := by
  constructor
  · simp [MovementD.promotionCheck, MovementD.requiredVotes, requiredVotesFormula_zero,
      thoughtClone]
  · decide

/-- C1 amended: `promotion_check` fires exactly when the thought is not yet
promoted, its container is *a* mindspace-kind collection (not necessarily the
movement's own), and its upvote count reaches `required_votes`; when it
fires, the returned clone lives in the movement's blog, carries one upvote
authored by the movement, shares the text and is parented to the original,
and the original is marked promoted; when it does not fire the thought is
unchanged; the promoted flag is never reset by `promotion_check`. -/
theorem C1_promotion_amended (self : MovementD) (t : ThoughtD) (cid uid : Nat) (now : ℚ) :
    (((self.promotionCheck t cid uid now).1).isSome
      ↔ (t.blogged = false ∧ (∃ ms, t.mindset = some ms ∧ ms.kind = MindsetKind.mindspace)
        ∧ self.requiredVotes ≤ (t.upvotes : ℤ)))
    ∧ (∀ c, (self.promotionCheck t cid uid now).1 = some c →
        c.mindset = some self.blogMs
        ∧ c.children = [⟨uid, self.id, 0⟩]
        ∧ c.text = t.text
        ∧ c.parentId = some t.id
        ∧ c.id = cid
        ∧ (self.promotionCheck t cid uid now).2 = { t with blogged := true })
    ∧ ((self.promotionCheck t cid uid now).1 = none →
        (self.promotionCheck t cid uid now).2 = t)
    ∧ (t.blogged = true → (self.promotionCheck t cid uid now).2.blogged = true) := by
  rcases hb : t.blogged with _ | _ <;> rcases hm : t.mindset with _ | ms
  · simp [MovementD.promotionCheck, hb, hm]
  · rcases hk : ms.kind with _ | _ | _
    · rcases le_or_lt self.requiredVotes (t.upvotes : ℤ) with hv | hv
      · simp [MovementD.promotionCheck, hb, hm, hk, thoughtClone, hv]
      · simp [MovementD.promotionCheck, hb, hm, hk, not_le.mpr hv]
    · simp [MovementD.promotionCheck, hb, hm, hk]
    · simp [MovementD.promotionCheck, hb, hm, hk]
  · simp [MovementD.promotionCheck, hb, hm]
  · simp [MovementD.promotionCheck, hb, hm]

/-- Witness for C1 amended: a zero-member movement (threshold 1) and a
one-upvote thought in its mindspace; the check fires and the original comes
back marked promoted. -/
theorem C1_promotion_witness :
    (((⟨7, 0, ⟨1, MindsetKind.mindspace⟩, ⟨2, MindsetKind.blogKind⟩⟩ : MovementD).promotionCheck
        ⟨40, 3, [], some ⟨1, MindsetKind.mindspace⟩, false, 1, [], none, 0⟩ 100 101 0).1).isSome = true
    ∧ ((⟨7, 0, ⟨1, MindsetKind.mindspace⟩, ⟨2, MindsetKind.blogKind⟩⟩ : MovementD).promotionCheck
        ⟨40, 3, [], some ⟨1, MindsetKind.mindspace⟩, false, 1, [], none, 0⟩ 100 101 0).2.blogged = true := by
  have h := C1_promotion_amended
    ⟨7, 0, ⟨1, MindsetKind.mindspace⟩, ⟨2, MindsetKind.blogKind⟩⟩
    ⟨40, 3, [], some ⟨1, MindsetKind.mindspace⟩, false, 1, [], none, 0⟩ 100 101 0
  have hreq : (⟨7, 0, ⟨1, MindsetKind.mindspace⟩, ⟨2, MindsetKind.blogKind⟩⟩ : MovementD).requiredVotes
      ≤ (((⟨40, 3, [], some ⟨1, MindsetKind.mindspace⟩, false, 1, [], none, 0⟩ : ThoughtD).upvotes : Nat) : ℤ) := by
    simp [MovementD.requiredVotes, requiredVotesFormula_zero]
  have hfire := h.1.mpr ⟨rfl, ⟨⟨1, MindsetKind.mindspace⟩, rfl, rfl⟩, hreq⟩
  refine ⟨hfire, ?_⟩
  obtain ⟨c, hc⟩ := Option.isSome_iff_exists.mp hfire
  rw [(h.2.1 c hc).2.2.2.2.2]

/-! ### Percept identity (C3) -/

theorem linkGetOrCreate_hit {s : PerceptStore} {url : List Char} {i : Nat}
    (h : alookup url s.linkIds = some i) : linkGetOrCreate url s = (i, false, s) := by
  simp [linkGetOrCreate, h]

theorem picGetOrCreate_hit {s : PerceptStore} {url : List Char} {i : Nat}
    (h : alookup url s.picIds = some i) : picGetOrCreate url s = (i, false, s) := by
  simp [picGetOrCreate, h]

theorem alookup_cons {α β : Type} [DecidableEq α] (a : α) (b : β) (l : List (α × β)) (k : α) :
    alookup k ((a, b) :: l) = if a = k then some b else alookup k l := rfl

theorem linkGetOrCreate_lookup (s : PerceptStore) (url : List Char) :
    alookup url ((linkGetOrCreate url s).2.2).linkIds = some (linkGetOrCreate url s).1 := by
  rcases h : alookup url s.linkIds with _ | i
  · simp [linkGetOrCreate, h, alookup_cons]
  · simp [linkGetOrCreate_hit h, h]

theorem picGetOrCreate_lookup (s : PerceptStore) (url : List Char) :
    alookup url ((picGetOrCreate url s).2.2).picIds = some (picGetOrCreate url s).1 := by
  rcases h : alookup url s.picIds with _ | i
  · simp [picGetOrCreate, h, alookup_cons]
  · simp [picGetOrCreate_hit h, h]

theorem linkGetOrCreate_preserves {s : PerceptStore} {u : List Char} {i : Nat}
    (url : List Char) (h : alookup u s.linkIds = some i) :
    alookup u ((linkGetOrCreate url s).2.2).linkIds = some i := by
  rcases h2 : alookup url s.linkIds with _ | j
  · have hne : ¬ url = u := fun he => by rw [he, h] at h2; exact Option.noConfusion h2
    simp [linkGetOrCreate, h2, alookup_cons, hne, h]
  · simp [linkGetOrCreate_hit h2, h]

theorem picGetOrCreate_preserves {s : PerceptStore} {u : List Char} {i : Nat}
    (url : List Char) (h : alookup u s.picIds = some i) :
    alookup u ((picGetOrCreate url s).2.2).picIds = some i := by
  rcases h2 : alookup url s.picIds with _ | j
  · have hne : ¬ url = u := fun he => by rw [he, h] at h2; exact Option.noConfusion h2
    simp [picGetOrCreate, h2, alookup_cons, hne, h]
  · simp [picGetOrCreate_hit h2, h]

theorem linkGetOrCreate_picIds (url : List Char) (s : PerceptStore) :
    ((linkGetOrCreate url s).2.2).picIds = s.picIds := by
  rcases h : alookup url s.linkIds with _ | i <;> simp [linkGetOrCreate, h]

theorem picGetOrCreate_linkIds (url : List Char) (s : PerceptStore) :
    ((picGetOrCreate url s).2.2).linkIds = s.linkIds := by
  rcases h : alookup url s.picIds with _ | i <;> simp [picGetOrCreate, h]

theorem tagLoop_store (ts : List (List Char)) (s : PerceptStore) :
    ((tagLoop ts s).2).linkIds = s.linkIds ∧ ((tagLoop ts s).2).picIds = s.picIds := by
  induction ts generalizing s with
  | nil => exact ⟨rfl, rfl⟩
  | cons t ts ih => simpa [tagLoop, newTagPercept] using ih _

theorem mentionLoop_store (ms : List (List Char × Nat)) (s : PerceptStore) :
    ((mentionLoop ms s).2).linkIds = s.linkIds ∧ ((mentionLoop ms s).2).picIds = s.picIds := by
  induction ms generalizing s with
  | nil => exact ⟨rfl, rfl⟩
  | cons m ms ih =>
    rcases m with ⟨txt, ident⟩
    simpa [mentionLoop, newMention] using ih _

theorem linkPerceptLoop_preserves {goose : List Char → Except Unit Page}
    {ls : List HeadResp} {text : List Char} {s : PerceptStore}
    {r : List Char × List Percept × PerceptStore}
    (h : linkPerceptLoop goose ls text s = .ok r) :
    (∀ u i, alookup u s.linkIds = some i → alookup u r.2.2.linkIds = some i)
    ∧ (∀ u i, alookup u s.picIds = some i → alookup u r.2.2.picIds = some i) := by
  induction ls generalizing text s r with
  | nil =>
    simp only [linkPerceptLoop] at h
    cases h
    exact ⟨fun u i hu => hu, fun u i hu => hu⟩
  | cons l ls ih =>
    simp only [linkPerceptLoop] at h
    split at h
    · -- image branch
      split at h
      · exact absurd h (by simp)
      · rename_i t ps s' hrec
        cases h
        have hp := ih hrec
        refine ⟨fun u i hu => ?_, fun u i hu => ?_⟩
        · exact hp.1 u i (by rw [picGetOrCreate_linkIds]; exact hu)
        · exact hp.2 u i (picGetOrCreate_preserves l.url hu)
    · -- non-image branch: goose fetch, then recursive loop
      split at h
      · exact absurd h (by simp)
      · rename_i page hg
        split at h
        · exact absurd h (by simp)
        · rename_i t ps s' hrec
          cases h
          have hp := ih hrec
          refine ⟨fun u i hu => ?_, fun u i hu => ?_⟩
          · refine hp.1 u i ?_
            rcases hnew : (linkGetOrCreate l.url s).2.1 with _ | _ <;>
              simp [hnew, linkGetOrCreate_preserves l.url hu]
          · refine hp.2 u i ?_
            rcases hnew : (linkGetOrCreate l.url s).2.1 with _ | _ <;>
              simp [hnew, linkGetOrCreate_picIds, hu]

theorem linkPerceptLoop_member {goose : List Char → Except Unit Page}
    {ls : List HeadResp} {text : List Char} {s : PerceptStore}
    {r : List Char × List Percept × PerceptStore}
    (h : linkPerceptLoop goose ls text s = .ok r)
    {l : HeadResp} (hl : l ∈ ls)
    (hct : ¬ (l.contentType.map fun ct => ct.take 5) = some ['i','m','a','g','e'])
    {i : Nat} (hi : alookup l.url s.linkIds = some i) :
    Percept.link i ∈ r.2.1 := by
  induction ls generalizing text s r with
  | nil => cases hl
  | cons l0 ls ih =>
    simp only [linkPerceptLoop] at h
    rcases List.mem_cons.mp hl with he | hmem
    · subst he
      rw [if_neg hct] at h
      rw [linkGetOrCreate_hit hi] at h
      split at h
      · exact absurd h (by simp)
      · rename_i page hg
        split at h
        · exact absurd h (by simp)
        · rename_i t ps s' hrec
          cases h
          exact List.mem_cons_self _ _
    · split at h
      · split at h
        · exact absurd h (by simp)
        · rename_i t ps s' hrec
          cases h
          refine List.mem_cons_of_mem _ (ih hrec hmem ?_)
          rw [picGetOrCreate_linkIds]; exact hi
      · split at h
        · exact absurd h (by simp)
        · rename_i page hg
          split at h
          · exact absurd h (by simp)
          · rename_i t ps s' hrec
            cases h
            refine List.mem_cons_of_mem _ (ih hrec hmem ?_)
            rcases hnew : (linkGetOrCreate l0.url s).2.1 with _ | _ <;>
              simp [hnew, linkGetOrCreate_preserves l0.url hi]

theorem processAttachments_preserves {idO : List Char → Option Nat}
    {headO : List Char → HeadOutcome} {goose : List Char → Except Unit Page}
    {s : PerceptStore} {t : List Char} {r : List Char × List Percept × PerceptStore}
    (h : processAttachments idO headO goose s t = .ok r) :
    (∀ u i, alookup u s.linkIds = some i → alookup u r.2.2.linkIds = some i)
    ∧ (∀ u i, alookup u s.picIds = some i → alookup u r.2.2.picIds = some i) := by
  simp only [processAttachments] at h
  split at h
  · exact absurd h (by simp)
  · rename_i tags text1 htags
    split at h
    · exact absurd h (by simp)
    · rename_i links text2 hlinks
      split at h
      · exact absurd h (by simp)
      · rename_i text3 linkPs s3 hloop
        cases h
        have hp := linkPerceptLoop_preserves hloop
        have ht := tagLoop_store tags s
        have hm := mentionLoop_store (find_mentions idO text1) (tagLoop tags s).2
        refine ⟨fun u i hu => ?_, fun u i hu => ?_⟩
        · exact hp.1 u i (by rw [hm.1, ht.1]; exact hu)
        · exact hp.2 u i (by rw [hm.2, ht.2]; exact hu)

theorem processAttachments_member {idO : List Char → Option Nat}
    {headO : List Char → HeadOutcome} {goose : List Char → Except Unit Page}
    {s : PerceptStore} {t : List Char} {r : List Char × List Percept × PerceptStore}
    (h : processAttachments idO headO goose s t = .ok r)
    {tags : List (List Char)} {text1 : List Char}
    (htags : find_tags t = some (tags, text1))
    {links : List HeadResp} {text2 : List Char}
    (hlinks : (find_links headO text1).1 = some (links, text2))
    {l : HeadResp} (hl : l ∈ links)
    (hct : ¬ (l.contentType.map fun ct => ct.take 5) = some ['i','m','a','g','e'])
    {i : Nat} (hi : alookup l.url s.linkIds = some i) :
    Percept.link i ∈ r.2.1 := by
  simp only [processAttachments, htags, hlinks] at h
  split at h
  · exact absurd h (by simp)
  · rename_i text3 linkPs s3 hloop
    cases h
    have ht := tagLoop_store tags s
    have hm := mentionLoop_store (find_mentions idO text1) (tagLoop tags s).2
    have hmem := linkPerceptLoop_member hloop hl hct (i := i) (by rw [hm.1, ht.1]; exact hi)
    simp only [List.mem_append]
    exact Or.inr hmem

/-- C3 counterexample: tag percepts are *not* content-addressed.  Two
extraction runs of the same text `"#ab x"` (same tag string `ab`) build
`TagPercept` by a plain constructor call, producing two distinct transient
instances (ids 0 and 1), not the same stored percept. -/
theorem C3_percepts_counterexample :
    processAttachments (fun _ => none) (fun _ => HeadOutcome.exc) (fun _ => .error ())
        ⟨0, [], [], []⟩ ['#','a','b',' ','x']
      = .ok (['#','a','b',' ','x'], [Percept.tag 0 ['a','b']], ⟨1, [], [], []⟩)
    ∧ processAttachments (fun _ => none) (fun _ => HeadOutcome.exc) (fun _ => .error ())
        ⟨1, [], [], []⟩ ['#','a','b',' ','x']
      = .ok (['#','a','b',' ','x'], [Percept.tag 1 ['a','b']], ⟨2, [], [], []⟩)
    ∧ Percept.tag 0 ['a','b'] ≠ Percept.tag 1 ['a','b'] :=
  ⟨rfl, rfl, by decide⟩

/-- C3 amended: link and linked-picture percepts are content-addressed — the
get-or-create keyed on the canonical URL returns the already-stored instance
unchanged when one exists, records the new row under its URL otherwise,
stored rows survive whole extraction runs, and a run that accepts a link
whose URL is already stored emits exactly that stored instance.  Tag
percepts, by contrast, are built by a plain constructor call per run and are
not deduplicated (see the counterexample). -/
theorem C3_percepts_amended :
    (∀ (s : PerceptStore) (url : List Char) (i : Nat),
      alookup url s.linkIds = some i → linkGetOrCreate url s = (i, false, s))
    ∧ (∀ (s : PerceptStore) (url : List Char),
      alookup url ((linkGetOrCreate url s).2.2).linkIds = some (linkGetOrCreate url s).1)
    ∧ (∀ (s : PerceptStore) (url : List Char) (i : Nat),
      alookup url s.picIds = some i → picGetOrCreate url s = (i, false, s))
    ∧ (∀ (s : PerceptStore) (url : List Char),
      alookup url ((picGetOrCreate url s).2.2).picIds = some (picGetOrCreate url s).1)
    ∧ (∀ (idO : List Char → Option Nat) (headO : List Char → HeadOutcome)
        (goose : List Char → Except Unit Page) (s : PerceptStore) (t : List Char)
        (r : List Char × List Percept × PerceptStore),
        processAttachments idO headO goose s t = .ok r →
        (∀ u i, alookup u s.linkIds = some i → alookup u r.2.2.linkIds = some i)
        ∧ (∀ u i, alookup u s.picIds = some i → alookup u r.2.2.picIds = some i))
    ∧ (∀ (idO : List Char → Option Nat) (headO : List Char → HeadOutcome)
        (goose : List Char → Except Unit Page) (s : PerceptStore) (t : List Char)
        (r : List Char × List Percept × PerceptStore)
        (tags : List (List Char)) (text1 : List Char)
        (links : List HeadResp) (text2 : List Char) (l : HeadResp) (i : Nat),
        processAttachments idO headO goose s t = .ok r →
        find_tags t = some (tags, text1) →
        (find_links headO text1).1 = some (links, text2) →
        l ∈ links →
        ¬ (l.contentType.map fun ct => ct.take 5) = some ['i','m','a','g','e'] →
        alookup l.url s.linkIds = some i →
        Percept.link i ∈ r.2.1) :=
  ⟨fun _ _ _ h => linkGetOrCreate_hit h,
   linkGetOrCreate_lookup,
   fun _ _ _ h => picGetOrCreate_hit h,
   picGetOrCreate_lookup,
   fun _ _ _ _ _ _ h => processAttachments_preserves h,
   fun _ _ _ _ _ _ _ _ _ _ _ _ h h1 h2 h3 h4 h5 =>
     processAttachments_member h h1 h2 h3 h4 h5⟩

/-- Witness for C3 amended: a second resolution of the stored URL
`http://ab.cd` (row id 3) returns the stored instance, and a full run over
`"x ab.cd"` with a 200 `text/html` HEAD response emits exactly
`Percept.link 3` while keeping the stored row. -/
theorem C3_percepts_witness :
    linkGetOrCreate ['h','t','t','p',':','/','/','a','b','.','c','d']
        ⟨5, [(['h','t','t','p',':','/','/','a','b','.','c','d'], 3)], [], []⟩
      = (3, false, ⟨5, [(['h','t','t','p',':','/','/','a','b','.','c','d'], 3)], [], []⟩)
    ∧ Percept.link 3 ∈
      (['x',' '], [Percept.link 3],
        (⟨5, [(['h','t','t','p',':','/','/','a','b','.','c','d'], 3)], [], []⟩ : PerceptStore)).2.1 := by
  constructor
  · exact C3_percepts_amended.1 _ _ 3 (by rfl)
  · exact C3_percepts_amended.2.2.2.2.2 (fun _ => none)
      (fun u => HeadOutcome.resp ⟨200, some ['t','e','x','t','/','h','t','m','l'], u⟩)
      (fun _ => .ok ⟨['T'], []⟩)
      ⟨5, [(['h','t','t','p',':','/','/','a','b','.','c','d'], 3)], [], []⟩
      ['x',' ','a','b','.','c','d']
      (['x',' '], [Percept.link 3],
        ⟨5, [(['h','t','t','p',':','/','/','a','b','.','c','d'], 3)], [], []⟩)
      [] ['x',' ','a','b','.','c','d']
      [⟨200, some ['t','e','x','t','/','h','t','m','l'],
        ['h','t','t','p',':','/','/','a','b','.','c','d']⟩] ['x',' ']
      ⟨200, some ['t','e','x','t','/','h','t','m','l'],
        ['h','t','t','p',':','/','/','a','b','.','c','d']⟩ 3
      (by rfl) (by rfl) (by rfl) (by decide) (by decide) (by rfl)

/-! ### Membership toggling and the derived-view cache (C9, C10) -/

theorem alookup_adel {β : Type} (k : Nat) (l : List (Nat × β)) :
    alookup k (adel k l) = none := by
  induction l with
  | nil => rfl
  | cons p l ih =>
    rcases p with ⟨a, b⟩
    by_cases hak : a = k
    · simpa [adel, List.filter_cons, hak] using ih
    · simpa [adel, List.filter_cons, hak, alookup] using ih

theorem toggle_cache_shape (selfId : Nat) (mov : MovementRec) (role : List Char)
    (code : Option (List Char)) (s : IdentState) :
    (∃ e, (toggleMovementMembership selfId mov role code s).2 = .error e)
    ∨ ∃ c, (toggleMovementMembership selfId mov role code s).1.cache
        = delToggleCaches selfId mov.id c := by
  simp only [toggleMovementMembership]
  repeat' split
  all_goals first
    | exact Or.inl ⟨_, rfl⟩
    | exact Or.inr ⟨_, rfl⟩

theorem toggle_ok_cache {selfId : Nat} {mov : MovementRec} {role : List Char}
    {code : Option (List Char)} {s s' : IdentState} {m : MMA}
    (h : toggleMovementMembership selfId mov role code s = (s', .ok m)) :
    alookup mov.id s'.cache.memberCountC = none
    ∧ alookup selfId s'.cache.movementsC = none
    ∧ alookup selfId s'.cache.repostC = none
    ∧ alookup selfId s'.cache.frontpageC = none := by
  rcases toggle_cache_shape selfId mov role code s with ⟨e, he⟩ | ⟨c, hc⟩
  · rw [h] at he; simp at he
  · rw [h] at hc
    rw [hc]
    exact ⟨alookup_adel _ _, alookup_adel _ _, alookup_adel _ _, alookup_adel _ _⟩

theorem find_none_any {l : List MMA} {p : MMA → Bool} (h : l.find? p = none) (r : MMA → Bool) :
    (l.any fun a => p a && r a) = false := by
  rw [List.any_eq_false]
  intro a ha
  have := List.find?_eq_none.mp h a ha
  simp [this]

theorem append_active {l : List MMA} {q : MMA → Bool} (h : l.find? q = none)
    (n : MMA) (r : MMA → Bool) :
    ((l ++ [n]).any fun b => q b && r b) = (q n && r n) := by
  rw [List.any_append, find_none_any h r]
  simp

theorem updateFirst_any {l : List MMA} {q : MMA → Bool} {a : MMA}
    (hfind : l.find? q = some a) (huniq : (l.filter q).length ≤ 1)
    (f : MMA → MMA) (hq : ∀ b, q (f b) = q b) (r : MMA → Bool) :
    ((updateFirst q f l).any fun b => q b && r b) = r (f a) := by
  induction l with
  | nil => simp at hfind
  | cons b l ih =>
    by_cases hb : q b = true
    · have hab : b = a := by
        have h1 : List.find? q (b :: l) = some b := List.find?_cons_of_pos l hb
        rw [h1] at hfind
        exact Option.some.inj hfind
      have hrest : List.filter q l = [] := by
        have h2 : List.filter q (b :: l) = b :: List.filter q l :=
          List.filter_cons_of_pos hb
        rw [h2] at huniq
        have h3 : (List.filter q l).length = 0 := by simpa using huniq
        exact List.length_eq_zero.mp h3
      have hnone : l.find? q = none := by
        rw [List.find?_eq_none]
        intro x hx hqx
        have hmem : x ∈ List.filter q l := List.mem_filter.mpr ⟨hx, hqx⟩
        rw [hrest] at hmem
        cases hmem
      have hu : updateFirst q f (b :: l) = f b :: l := by simp [updateFirst, hb]
      rw [hu]
      simp [hq, hb, find_none_any hnone r, ← hab]
    · have hfind' : l.find? q = some a := by
        have h1 : List.find? q (b :: l) = List.find? q l := List.find?_cons_of_neg l hb
        rwa [h1] at hfind
      have huniq' : (List.filter q l).length ≤ 1 := by
        have h2 : List.filter q (b :: l) = List.filter q l := List.filter_cons_of_neg hb
        rwa [h2] at huniq
      have hu : updateFirst q f (b :: l) = b :: updateFirst q f l := by
        simp [updateFirst, hb]
      rw [hu]
      simp [hb, ih hfind' huniq']

theorem toggleFollowing_mmas (x y : Nat) (s : IdentState) :
    (toggleFollowing x y s).2.mmas = s.mmas := by
  by_cases hp : (x, y) ∈ s.blogsFollowed <;> simp [toggleFollowing, hp]

theorem toggleFollowing_registry (x y : Nat) (s : IdentState) :
    (toggleFollowing x y s).2.registry = s.registry := by
  by_cases hp : (x, y) ∈ s.blogsFollowed <;> simp [toggleFollowing, hp]

theorem toggleFollowing_currentActive (x y : Nat) (s : IdentState) :
    (toggleFollowing x y s).2.currentActive = s.currentActive := by
  by_cases hp : (x, y) ∈ s.blogsFollowed <;> simp [toggleFollowing, hp]

theorem pairPred_role_irrel (selfId movId : Nat) (b : MMA) (act : Bool) (rl : List Char) :
    pairPred selfId movId { b with active := act, role := rl } = pairPred selfId movId b := by
  simp [pairPred]

theorem toggle_none_shape (selfId : Nat) (mov : MovementRec) (role : List Char)
    (s : IdentState)
    (huniq : (s.mmas.filter (pairPred selfId mov.id)).length ≤ 1) :
    (∃ e, (toggleMovementMembership selfId mov role none s).2 = .error e)
    ∨ ∃ m, (toggleMovementMembership selfId mov role none s).2 = .ok m
      ∧ (toggleMovementMembership selfId mov role none s).1.registry = s.registry
      ∧ (toggleMovementMembership selfId mov role none s).1.currentActive = s.currentActive
      ∧ activeMember (toggleMovementMembership selfId mov role none s).1.mmas selfId mov.id
        = m.active := by
  rcases hfind : s.mmas.find? (pairPred selfId mov.id) with _ | a
  all_goals simp only [toggleMovementMembership, mmaLookupPred, hfind]
  all_goals repeat' split
  all_goals first
    | exact Or.inl ⟨_, rfl⟩
    | (refine Or.inr ⟨_, rfl, ?_, ?_, ?_⟩ <;>
        simp only [toggleFollowing_mmas, toggleFollowing_registry,
          toggleFollowing_currentActive, activeMember] <;>
        first
          | rfl
          | (rw [append_active hfind]; simp [pairPred])
          | (rw [updateFirst_any hfind huniq _
              (fun b => pairPred_role_irrel selfId mov.id b true role) (fun b => b.active)])
          | (rw [updateFirst_any hfind huniq _
              (fun b => pairPred_role_irrel selfId mov.id b false ['l','e','f','t'])
              (fun b => b.active)]))

theorem toggle_none_ok {selfId : Nat} {mov : MovementRec} {role : List Char}
    {s s' : IdentState} {m : MMA}
    (huniq : (s.mmas.filter (pairPred selfId mov.id)).length ≤ 1)
    (h : toggleMovementMembership selfId mov role none s = (s', .ok m)) :
    s'.registry = s.registry
    ∧ s'.currentActive = s.currentActive
    ∧ activeMember s'.mmas selfId mov.id = m.active := by
  rcases toggle_none_shape selfId mov role s huniq with ⟨e, he⟩ | ⟨m2, hok, hreg, hcur, hact⟩
  · rw [h] at he; simp at he
  · rw [h] at hok hreg hcur hact
    simp only at hok hreg hcur hact
    have hm : m = m2 := by simpa using hok
    subst hm
    exact ⟨hreg, hcur, hact⟩

theorem movementsCompute_any (s : IdentState) (mid : Nat)
    (hreg : ∃ m ∈ s.registry, m.id = mid) :
    ((movementsCompute s).any fun p => p.1 = mid)
      = activeMember s.mmas s.currentActive mid := by
  have hperm := List.perm_insertionSort byUsername
    ((s.registry.filter fun m => activeMember s.mmas s.currentActive m.id).map
      fun m => (m.id, m.username))
  rcases hact : activeMember s.mmas s.currentActive mid with _ | _
  · rw [List.any_eq_false]
    intro p hp
    have hp2 := hperm.mem_iff.mp hp
    obtain ⟨m, hm2, hm3⟩ := List.mem_map.mp hp2
    obtain ⟨hm4, hm5⟩ := List.mem_filter.mp hm2
    simp only [decide_eq_true_eq]
    intro hpe
    rw [← hm3] at hpe
    simp only at hpe
    rw [hpe] at hm5
    rw [hact] at hm5
    cases hm5
  · rw [List.any_eq_true]
    obtain ⟨m, hm, hid⟩ := hreg
    refine ⟨(m.id, m.username), hperm.mem_iff.mpr ?_, by simpa using hid⟩
    refine List.mem_map.mpr ⟨m, List.mem_filter.mpr ⟨hm, ?_⟩, rfl⟩
    rw [hid, hact]

/-- C9: a membership toggle that changes a membership synchronously deletes
the movement's memoized `member_count` and the persona's memoized
`movements`, `repost_mindsets` and `frontpage_sources` entries, and a
subsequent read of that persona's cached movement list (when that persona is
the ambient active one) reflects the new membership — no stale read.  The
hypotheses carry the DB unique constraint `_mma_uc` (at most one association
per (persona, movement) pair), the plain no-invitation-code path, and that
the movement is a registered row. -/
theorem C9_toggle_invalidation (s : IdentState) (mov : MovementRec) (role : List Char)
    (selfId : Nat) (s' : IdentState) (m : MMA)
    (h : toggleMovementMembership selfId mov role none s = (s', .ok m))
    (hcur : s.currentActive = selfId)
    (huniq : (s.mmas.filter (pairPred selfId mov.id)).length ≤ 1)
    (hreg : mov ∈ s.registry) :
    (alookup mov.id s'.cache.memberCountC = none
      ∧ alookup selfId s'.cache.movementsC = none
      ∧ alookup selfId s'.cache.repostC = none
      ∧ alookup selfId s'.cache.frontpageC = none)
    ∧ ((movementsRead selfId s').1.any fun p => p.1 = mov.id) = m.active := by
  have hc := toggle_ok_cache h
  have hs := toggle_none_ok huniq h
  refine ⟨hc, ?_⟩
  simp only [movementsRead, hc.2.1]
  rw [movementsCompute_any s' mov.id ⟨mov, by rw [hs.1]; exact hreg, rfl⟩]
  rw [hs.2.1, hcur]
  exact hs.2.2

/-- Witness for C9 at a concrete join: persona 1 (the ambient active
persona) joins movement 10 starting from `exJoinState`; the stale movements
entry is gone and the fresh read lists movement 10. -/
theorem C9_toggle_witness :
    alookup 1 (toggleMovementMembership 1 exMovement ['m'] none exJoinState).1.cache.movementsC
      = none
    ∧ ((movementsRead 1 (toggleMovementMembership 1 exMovement ['m'] none exJoinState).1).1.any
        fun p => p.1 = exMovement.id) = true := by
  have h := C9_toggle_invalidation exJoinState exMovement ['m'] 1
    (toggleMovementMembership 1 exMovement ['m'] none exJoinState).1
    ⟨1, 10, true, ['m'], none⟩ (by rfl) (by rfl) (by decide) (by decide)
  exact ⟨h.1.2.1, h.2⟩

/-- C10: `Persona.movements` reads the membership of the ambient
`current_user.active_persona` while its memo key derives from the persona
instance it is called on: on a cache miss the result does not depend on the
instance at all; in the sample state, `movements` of the non-member persona
1 returns the ambient persona 2's movement list, stores it under persona 1's
key, and re-running with a different ambient login yields a different
result for the identical argument. -/
theorem C10_movements_ambient_persona :
    (∀ (s : IdentState) (p q : Nat),
      alookup p s.cache.movementsC = none → alookup q s.cache.movementsC = none →
      (movementsRead p s).1 = (movementsRead q s).1)
    ∧ (movementsRead 1 exState).1 = [(10, 77)]
    ∧ (∀ a ∈ exState.mmas, ¬ (a.personaId = 1 ∧ a.active = true))
    ∧ alookup 1 ((movementsRead 1 exState).2.cache.movementsC) = some [(10, 77)]
    ∧ (movementsRead 1 { exState with currentActive := 1 }).1 = [] := by
  refine ⟨fun s p q hp hq => ?_, by rfl, by decide, by rfl, by rfl⟩
  simp [movementsRead, hp, hq]

/-- Witness for C10: on the sample state with an empty cache, reading the
movement list through persona 1 and through persona 2 gives the same
result. -/
theorem C10_movements_witness :
    (movementsRead 1 exState).1 = (movementsRead 2 exState).1 :=
  C10_movements_ambient_persona.1 exState 1 2 rfl rfl

/-! ### Lemmas about the tag scanner (C4, C5) -/

theorem startsWith_iff {n h : List Char} : startsWith n h = true ↔ n <+: h := by
  induction n generalizing h with
  | nil => simp [startsWith]
  | cons a as ih =>
    cases h with
    | nil => simp [startsWith]
    | cons b bs => simp [startsWith, List.cons_prefix_cons, ih]

theorem startsWith_self (l : List Char) : startsWith l l = true :=
  startsWith_iff.mpr (List.prefix_refl l)

theorem startsWith_append (l r : List Char) : startsWith l (l ++ r) = true :=
  startsWith_iff.mpr (List.prefix_append l r)

theorem not_prefix_boundary {s2 x : List Char} (hx : '#' ∉ x) (hpre : ¬ x <+: s2) :
    ¬ x <+: s2 ++ '#' :: x := by
  intro h
  rcases Nat.lt_or_ge s2.length x.length with hlt | hge
  · have h1 : s2 ++ ['#'] <+: s2 ++ '#' :: x := by
      rw [List.append_cons s2 '#' x]
      exact List.prefix_append _ _
    have h2 : s2 ++ ['#'] <+: x :=
      List.prefix_of_prefix_length_le h1 h (by simp; omega)
    exact hx (h2.subset (by simp))
  · exact hpre (List.prefix_of_prefix_length_le h (List.prefix_append s2 _) hge)

theorem firstIdx_of_startsWith {n h : List Char} (hs : startsWith n h = true) :
    firstIdx n h = some 0 := by
  cases h with
  | nil =>
    cases n with
    | nil => rfl
    | cons a as => simp [startsWith] at hs
  | cons c rest => simp [firstIdx, hs]

theorem firstIdx_cons_neg {n : List Char} {c : Char} {rest : List Char}
    (h : startsWith n (c :: rest) = false) :
    firstIdx n (c :: rest) = (firstIdx n rest).map (· + 1) := by
  simp [firstIdx, h]

theorem firstIdx_none_cons {n : List Char} {c : Char} {rest : List Char}
    (h : firstIdx n (c :: rest) = none) :
    startsWith n (c :: rest) = false ∧ firstIdx n rest = none := by
  rcases hs : startsWith n (c :: rest) with _ | _
  · refine ⟨rfl, ?_⟩
    simp only [firstIdx, hs, Bool.false_eq_true, if_false] at h
    exact Option.map_eq_none'.mp h
  · simp [firstIdx, hs] at h

theorem firstIdx_boundary {s x : List Char} (hx : '#' ∉ x)
    (hnone : firstIdx x s = none) :
    firstIdx x (s ++ '#' :: x) = some (s.length + 1) := by
  induction s with
  | nil =>
    have hxe : x ≠ [] := by
      intro he
      subst he
      simp [firstIdx] at hnone
    have h0 : startsWith x ('#' :: x) = false := by
      cases x with
      | nil => exact absurd rfl hxe
      | cons a as =>
        have ha : ¬ a = '#' := fun he => hx (he ▸ List.mem_cons_self a as)
        simp [startsWith, ha]
    rw [List.nil_append, firstIdx_cons_neg h0, firstIdx_of_startsWith (startsWith_self x)]
    rfl
  | cons c s ih =>
    obtain ⟨h1, h2⟩ := firstIdx_none_cons hnone
    have hpre : ¬ x <+: (c :: s) := fun hp => by
      rw [startsWith_iff.mpr hp] at h1
      cases h1
    have h3 : startsWith x ((c :: s) ++ '#' :: x) = false := by
      rcases hsw : startsWith x ((c :: s) ++ '#' :: x) with _ | _
      · rfl
      · exact absurd (startsWith_iff.mp hsw) (not_prefix_boundary hx hpre)
    have h4 : startsWith x (c :: (s ++ '#' :: x)) = false := h3
    rw [List.cons_append, firstIdx_cons_neg h4, ih h2]
    rfl

theorem rstrip_eq_self {l : List Char}
    (h : ∀ c, l.getLast? = some c → isPySpace c = false) : rstrip l = l := by
  unfold rstrip
  cases hr : l.reverse with
  | nil =>
    have : l = [] := by simpa using congrArg List.reverse hr
    simp [this]
  | cons c rest =>
    have hc : l.getLast? = some c := by rw [← List.head?_reverse, hr]; rfl
    have hcs := h c hc
    rw [List.dropWhile_cons, hcs]
    simp only [Bool.false_eq_true, if_false]
    rw [← hr, List.reverse_reverse]

theorem rstrip_append {a b : List Char} (h : rstrip b ≠ []) :
    rstrip (a ++ b) = a ++ rstrip b := by
  unfold rstrip at h ⊢
  rw [List.reverse_append, List.dropWhile_append]
  have hne : (b.reverse.dropWhile isPySpace).isEmpty = false := by
    rcases hd : b.reverse.dropWhile isPySpace with _ | ⟨c, r⟩
    · exact absurd (by rw [hd]; rfl) h
    · rfl
  rw [hne]
  simp

theorem rstrip_append_tag {l x : List Char} (hxe : x ≠ [])
    (hx : ∀ c ∈ x, isPySpace c = false) : rstrip (l ++ x) = l ++ x := by
  apply rstrip_eq_self
  intro c hc
  rw [List.getLast?_append] at hc
  rcases hgl : x.getLast? with _ | d
  · rcases x with _ | ⟨a, x'⟩
    · exact absurd rfl hxe
    · rw [List.getLast?_eq_none_iff] at hgl
      cases hgl
  · rw [hgl] at hc
    have hcd : d = c := by simpa [Option.or] using hc
    subst hcd
    exact hx d (List.mem_of_getLast?_eq_some hgl)

theorem scanTags_skip (x r : List Char) : scanTags (x ++ r) x.length = scanTags r 0 := by
  induction x with
  | nil => rfl
  | cons a x ih => simpa [scanTags] using ih

theorem scanTags_no_hash {l : List Char} (h : '#' ∉ l) : scanTags l 0 = [] := by
  induction l with
  | nil => rfl
  | cons c rest ih =>
    have hc : ¬ c = '#' := fun he => h (by rw [he]; exact List.mem_cons_self _ _)
    simp only [scanTags, hc, if_false]
    exact ih fun hm => h (List.mem_cons_of_mem _ hm)

theorem scanTags_append_no_hash {s t : List Char} (h : '#' ∉ s) :
    scanTags (s ++ t) 0 = scanTags t 0 := by
  induction s with
  | nil => rfl
  | cons c s ih =>
    have hc : ¬ c = '#' := fun he => h (by rw [he]; exact List.mem_cons_self _ _)
    simp only [List.cons_append, scanTags, hc, if_false]
    exact ih fun hm => h (List.mem_cons_of_mem _ hm)

theorem splitTag_zero (l : List Char) : splitTag l 0 = ([], l) := by
  cases l <;> rfl

theorem splitTag_exact {x r : List Char} {n : Nat}
    (hx : ∀ c ∈ x, isPySpace c = false) (hn : x.length ≤ n)
    (hr : ∀ c, r.head? = some c → isPySpace c = true) :
    splitTag (x ++ r) n = (x, r) := by
  induction x generalizing n with
  | nil =>
    cases n with
    | zero => exact splitTag_zero r
    | succ n =>
      cases r with
      | nil => rfl
      | cons c rest =>
        have := hr c rfl
        simp [splitTag, this]
  | cons a x ih =>
    cases n with
    | zero => simp at hn
    | succ n =>
      have ha : isPySpace a = false := hx a (List.mem_cons_self a x)
      simp [splitTag, ha,
        ih (fun c hc => hx c (List.mem_cons_of_mem a hc)) (Nat.le_of_succ_le_succ hn)]

theorem scanTags_tag_head {x r : List Char} (hx : validTag x)
    (hr : ∀ c, r.head? = some c → isPySpace c = true) :
    scanTags ('#' :: (x ++ r)) 0 = x :: scanTags r 0 := by
  obtain ⟨hxe, hlen, hws, _⟩ := hx
  obtain ⟨a, x', rfl⟩ := List.exists_cons_of_ne_nil hxe
  have hsplit : splitTag ((a :: x') ++ r) 32 = (a :: x', r) := splitTag_exact hws hlen hr
  have hskip : scanTags ((a :: x') ++ r) (a :: x').length = scanTags r 0 := scanTags_skip _ _
  simp only [List.cons_append, List.length_cons] at hsplit hskip
  simp [scanTags, hsplit, hskip]
  exact scanTags_skip x' r

theorem replaceAux_skip_all {n l : List Char} {k : Nat} (h : l.length ≤ k) :
    replaceAux n l k = [] := by
  induction l generalizing k with
  | nil => rfl
  | cons c rest ih =>
    cases k with
    | zero => simp at h
    | succ k => exact ih (Nat.le_of_succ_le_succ h)

theorem replaceAll_boundary {s x : List Char} (hs : '#' ∉ s) :
    replaceAll ('#' :: x) (s ++ '#' :: x) = s := by
  unfold replaceAll
  induction s with
  | nil =>
    rw [List.nil_append]
    have hsw : startsWith ('#' :: x) ('#' :: x) = true := startsWith_self _
    simp only [replaceAux, hsw, if_pos]
    exact replaceAux_skip_all (by simp)
  | cons c s ih =>
    have hc : ¬ '#' = c := fun he => hs (by rw [← he]; exact List.mem_cons_self _ _)
    have hsw : startsWith ('#' :: x) (c :: (s ++ '#' :: x)) = false := by
      simp [startsWith, hc]
    have hstep : replaceAux ('#' :: x) (c :: (s ++ '#' :: x)) 0
        = c :: replaceAux ('#' :: x) (s ++ '#' :: x) 0 := by
      simp [replaceAux, hsw]
    calc replaceAux ('#' :: x) ((c :: s) ++ '#' :: x) 0
        = c :: replaceAux ('#' :: x) (s ++ '#' :: x) 0 := hstep
      _ = c :: s := by rw [ih fun hm => hs (List.mem_cons_of_mem _ hm)]

theorem find_tags_trailing {s x : List Char} (hs : '#' ∉ s) (hx : validTag x)
    (hnotin : firstIdx x s = none) :
    find_tags (s ++ '#' :: x) = some ([x], if s = [] then s ++ '#' :: x else s) := by
  have hscan : findTagsScan (s ++ '#' :: x) = [x] := by
    unfold findTagsScan
    rw [scanTags_append_no_hash hs]
    have h1 : scanTags ('#' :: (x ++ [])) 0 = x :: scanTags [] 0 :=
      scanTags_tag_head hx (by intro c hc; simp at hc)
    rw [List.append_nil] at h1
    rw [h1]
    rfl
  have hidx : firstIdx x (s ++ '#' :: x) = some (s.length + 1) :=
    firstIdx_boundary hx.2.2.2 hnotin
  have hrs : rstrip (s ++ '#' :: x) = s ++ '#' :: x := by
    have h2 := rstrip_append_tag (l := s ++ ['#']) hx.1 hx.2.2.1
    rwa [List.append_assoc, List.singleton_append] at h2
  have hcond : s.length + 1 + x.length = (rstrip (s ++ '#' :: x)).length := by
    rw [hrs]
    simp [List.length_append]
    omega
  have hstrip : tagStrip [x] (s ++ '#' :: x) = some s := by
    simp only [tagStrip, hidx, if_pos hcond, replaceAll_boundary hs]
  unfold find_tags
  rw [hscan]
  simp only [List.reverse_singleton, hstrip]
  rcases s with _ | ⟨c, s'⟩
  · simp
  · simp

theorem find_tags_non_trailing {x r : List Char} (hx : validTag x) (hr : '#' ∉ r)
    (hrs : rstrip r ≠ []) :
    find_tags ('#' :: (x ++ ' ' :: r)) = some ([x], '#' :: (x ++ ' ' :: r)) := by
  have hscan : findTagsScan ('#' :: (x ++ ' ' :: r)) = [x] := by
    unfold findTagsScan
    have h1 : scanTags ('#' :: (x ++ ' ' :: r)) 0 = x :: scanTags (' ' :: r) 0 :=
      scanTags_tag_head hx (by
        intro c hc
        simp only [List.head?_cons, Option.some.injEq] at hc
        subst hc
        rfl)
    have h2 : scanTags (' ' :: r) 0 = [] := by
      have hsp : ¬ (' ' : Char) = '#' := by decide
      simp only [scanTags, hsp, if_false]
      exact scanTags_no_hash hr
    rw [h1, h2]
  have hx0 : x ≠ [] := hx.1
  have hsw0 : startsWith x ('#' :: (x ++ ' ' :: r)) = false := by
    rcases x with _ | ⟨a, as⟩
    · exact absurd rfl hx0
    · have ha : ¬ a = '#' := fun he => hx.2.2.2 (by rw [he]; exact List.mem_cons_self _ _)
      simp [startsWith, ha]
  have hidx : firstIdx x ('#' :: (x ++ ' ' :: r)) = some 1 := by
    rw [firstIdx_cons_neg hsw0, firstIdx_of_startsWith (startsWith_append x (' ' :: r))]
    rfl
  have h4 : rstrip (' ' :: r) = ' ' :: rstrip r := by
    have h5 := rstrip_append (a := [' ']) (b := r) hrs
    simpa using h5
  have hrst : rstrip ('#' :: (x ++ ' ' :: r)) = '#' :: (x ++ ' ' :: rstrip r) := by
    have h6 : rstrip (('#' :: x) ++ (' ' :: r)) = ('#' :: x) ++ rstrip (' ' :: r) :=
      rstrip_append (by rw [h4]; simp)
    rw [h4] at h6
    simpa using h6
  have hcond : ¬ (1 + x.length = (rstrip ('#' :: (x ++ ' ' :: r))).length) := by
    rw [hrst]
    simp [List.length_append]
    omega
  have hstrip : tagStrip [x] ('#' :: (x ++ ' ' :: r))
      = some ('#' :: (x ++ ' ' :: r)) := by
    simp only [tagStrip, hidx, if_neg hcond]
  unfold find_tags
  rw [hscan]
  simp only [List.reverse_singleton, hstrip]
  simp

/-- C4 counterexample: on `"#a x #b"` the returned tag sequence is
`["b", "a"]` — the reverse of first-occurrence textual order, because
`find_tags` returns `re.findall(...)[::-1]`. -/
theorem C4_tag_order_counterexample :
    find_tags ['#','a',' ','x',' ','#','b'] = some ([['b'], ['a']], ['#','a',' ','x',' '])
    ∧ [['b'], ['a']] ≠ [['a'], ['b']] := by
  constructor
  · decide
  · decide

/-- C4 amended: the tag sequence returned by `find_tags` is the *reverse* of
the first-occurrence textual order of the tags in the input — the scanner
finds tags left to right, and `find_tags` returns the reversed match list. -/
theorem C4_tag_order_amended :
    (∀ (text : List Char) (p : List (List Char) × List Char),
      find_tags text = some p → p.1 = (findTagsScan text).reverse)
    ∧ (∀ x y : List Char, validTag x → validTag y →
      findTagsScan ('#' :: (x ++ ' ' :: '#' :: y)) = [x, y]) := by
  constructor
  · intro text p h
    rcases hts : tagStrip (findTagsScan text).reverse text with _ | tn
    · simp only [find_tags, hts] at h
      cases h
    · simp only [find_tags, hts] at h
      cases h
      rfl
  · intro x y hx hy
    have h1 : scanTags ('#' :: (x ++ (' ' :: '#' :: y))) 0
        = x :: scanTags (' ' :: '#' :: y) 0 :=
      scanTags_tag_head hx (by
        intro c hc
        simp only [List.head?_cons, Option.some.injEq] at hc
        subst hc
        rfl)
    have hsp : ¬ (' ' : Char) = '#' := by decide
    have h2 : scanTags (' ' :: '#' :: y) 0 = scanTags ('#' :: y) 0 := by
      simp [scanTags, hsp]
    have h3 : scanTags ('#' :: (y ++ [])) 0 = y :: scanTags [] 0 :=
      scanTags_tag_head hy (by intro c hc; simp at hc)
    rw [List.append_nil] at h3
    unfold findTagsScan
    rw [h1, h2, h3]
    rfl

/-- Witness for C4 amended: on `"#a x #b"` the code's result is the reversed
scan order, and the scanner lists `"#a #b"` tags in textual order. -/
theorem C4_tag_order_witness :
    ([['b'], ['a']] : List (List Char)) = (findTagsScan ['#','a',' ','x',' ','#','b']).reverse
    ∧ findTagsScan ['#','a',' ','#','b'] = [['a'], ['b']] := by
  constructor
  · exact C4_tag_order_amended.1 ['#','a',' ','x',' ','#','b']
      ([['b'], ['a']], ['#','a',' ','x',' ']) (by decide)
  · have h := C4_tag_order_amended.2 ['a'] ['b']
      ⟨by decide, by decide, by decide, by decide⟩
      ⟨by decide, by decide, by decide, by decide⟩
    simpa using h

/-- C5 counterexample: `"abc #abc"` has the trailing tag `#abc`, whose
removal (`"abc "`) would not empty the text, yet `find_tags` returns the
text unchanged — `str.index` locates the tag at its *first* occurrence
(inside `"abc"`), which is not at the tail, so the strip condition fails. -/
theorem C5_tags_counterexample :
    find_tags ['a','b','c',' ','#','a','b','c']
      = some ([['a','b','c']], ['a','b','c',' ','#','a','b','c'])
    ∧ ['a','b','c',' ','#','a','b','c'] = ['a','b','c',' '] ++ '#' :: ['a','b','c']
    ∧ replaceAll ('#' :: ['a','b','c']) ['a','b','c',' ','#','a','b','c'] ≠ [] := by
  refine ⟨by decide, by decide, by decide⟩

/-- C5 amended: a trailing tag `#x` is reported and stripped from the tail
provided the tag text `x` does not occur earlier in the text (the code
locates it by first occurrence); if the stripped text would be empty the
original text is returned; a tag followed by further non-whitespace text is
reported but not stripped. -/
theorem C5_tags_amended :
    (∀ s x : List Char, '#' ∉ s → validTag x → firstIdx x s = none →
      find_tags (s ++ '#' :: x) = some ([x], if s = [] then s ++ '#' :: x else s))
    ∧ (∀ x r : List Char, validTag x → '#' ∉ r → rstrip r ≠ [] →
      find_tags ('#' :: (x ++ ' ' :: r)) = some ([x], '#' :: (x ++ ' ' :: r))) :=
  ⟨fun _ _ hs hx hn => find_tags_trailing hs hx hn,
   fun _ _ hx hr hrs => find_tags_non_trailing hx hr hrs⟩

/-- Witness for C5 amended: `"x #ab"` strips its trailing tag to `"x "`;
`"#ab"` alone returns the original text (stripping would empty it); and in
`"#ab y"` the non-trailing tag is reported but nothing is stripped. -/
theorem C5_tags_witness :
    find_tags (['x',' '] ++ '#' :: ['a','b']) = some ([['a','b']], ['x',' '])
    ∧ find_tags (([] : List Char) ++ '#' :: ['a','b'])
      = some ([['a','b']], ([] : List Char) ++ '#' :: ['a','b'])
    ∧ find_tags ('#' :: (['a','b'] ++ ' ' :: ['y']))
      = some ([['a','b']], '#' :: (['a','b'] ++ ' ' :: ['y'])) := by
  refine ⟨?_, ?_, ?_⟩
  · have h := C5_tags_amended.1 ['x',' '] ['a','b'] (by decide)
      ⟨by decide, by decide, by decide, by decide⟩ (by decide)
    simpa using h
  · have h := C5_tags_amended.1 [] ['a','b'] (by decide)
      ⟨by decide, by decide, by decide, by decide⟩ (by decide)
    simpa using h
  · exact C5_tags_amended.2 ['a','b'] ['y']
      ⟨by decide, by decide, by decide, by decide⟩ (by decide) (by decide)

/-! ### Lemmas about the link resolver loop (C7, C8) -/

theorem linkLoop_all_exc {oracle : List Char → HeadOutcome}
    (hall : ∀ u, oracle u = HeadOutcome.exc) :
    ∀ (cs rejects : List (List Char)) (rv : List HeadResp) (text : List Char)
      (checked : List (List Char)),
    linkLoop oracle cs rejects rv text checked
      = (some (rv, text), checked ++ dedupAux cs rejects) := by
  intro cs
  induction cs with
  | nil =>
    intro rejects rv text checked
    simp [linkLoop, dedupAux]
  | cons c cs ih =>
    intro rejects rv text checked
    by_cases hmem : schemedC c ∈ rejects
    · simp only [linkLoop, if_pos hmem, dedupAux, ih]
    · simp only [linkLoop, if_neg hmem, hall (schemedC c), dedupAux]
      rw [ih]
      simp

theorem linkLoop_checked_spec (oracle : List Char → HeadOutcome) :
    ∀ (cs rejects : List (List Char)) (rv : List HeadResp) (text : List Char)
      (checked : List (List Char)),
    ∃ ch, (linkLoop oracle cs rejects rv text checked).2 = checked ++ ch
      ∧ List.Sublist ch (cs.map schemedC)
      ∧ (∀ u, u ∈ rejects → ch.count u = 0)
      ∧ (∀ u, oracle u = HeadOutcome.exc → ch.count u ≤ 1)
      ∧ ((linkLoop oracle cs rejects rv text checked).1.isSome = true →
          ∀ u, u ∉ rejects → oracle u ≠ HeadOutcome.exc →
            ch.count u = (cs.map schemedC).count u) := by
  intro cs
  induction cs with
  | nil =>
    intro rejects rv text checked
    exact ⟨[], by simp [linkLoop], List.Sublist.refl _, fun u _ => rfl, fun u _ => by simp,
      fun _ u _ _ => rfl⟩
  | cons c cs ih =>
    intro rejects rv text checked
    by_cases hmem : schemedC c ∈ rejects
    · obtain ⟨ch, h1, h2, h3, h4, h5⟩ := ih rejects rv text checked
      refine ⟨ch, ?_, ?_, h3, h4, ?_⟩
      · rw [← h1]; simp [linkLoop, hmem]
      · exact h2.cons _
      · intro hsome u hu hexc
        have hne : ¬ schemedC c == u := by
          simp only [beq_iff_eq]
          intro he
          rw [he] at hmem
          exact hu hmem
        rw [List.map_cons, List.count_cons]
        simp only [hne, if_false]
        refine h5 ?_ u hu hexc
        have heq : (linkLoop oracle (c :: cs) rejects rv text checked).1
            = (linkLoop oracle cs rejects rv text checked).1 := by
          simp [linkLoop, hmem]
        rw [← heq]
        exact hsome
    · rcases ho : oracle (schemedC c) with _ | r
      · -- the head check raises: rejected, recorded once, loop continues
        obtain ⟨ch, h1, h2, h3, h4, h5⟩ :=
          ih (schemedC c :: rejects) rv text (checked ++ [schemedC c])
        have hred : linkLoop oracle (c :: cs) rejects rv text checked
            = linkLoop oracle cs (schemedC c :: rejects) rv text (checked ++ [schemedC c]) := by
          simp [linkLoop, hmem, ho]
        refine ⟨schemedC c :: ch, ?_, h2.cons₂ _, ?_, ?_, ?_⟩
        · rw [hred, h1]; simp
        · intro u hu
          have hne : ¬ schemedC c == u := by
            simp only [beq_iff_eq]
            intro he
            rw [he] at hmem
            exact hmem hu
          rw [List.count_cons]
          simp only [hne, if_false]
          exact h3 u (List.mem_cons_of_mem _ hu)
        · intro u hexc
          rcases hcu : schemedC c == u with _ | _
          · rw [List.count_cons, hcu]
            simpa using h4 u hexc
          · have hcu' : schemedC c = u := by simpa using hcu
            rw [List.count_cons, hcu]
            have h0 : ch.count u = 0 := h3 u (by rw [← hcu']; exact List.mem_cons_self _ _)
            simp [h0]
        · intro hsome u hu hexc
          have hne : ¬ schemedC c == u := by
            simp only [beq_iff_eq]
            intro he
            exact hexc (he ▸ ho)
          rw [List.count_cons, List.map_cons, List.count_cons]
          simp only [hne, if_false]
          refine h5 ?_ u ?_ hexc
          · rw [← hred]; exact hsome
          · intro hmem2
            rcases List.mem_cons.mp hmem2 with he | hm
            · exact hexc (he ▸ ho)
            · exact hu hm
      · by_cases hst : r.status < 400
        · rcases hfi : firstIdx c text with _ | i
          · -- uncaught ValueError: the loop aborts after this check
            have hred : linkLoop oracle (c :: cs) rejects rv text checked
                = (none, checked ++ [schemedC c]) := by
              simp [linkLoop, hmem, ho, hst, hfi]
            refine ⟨[schemedC c], by rw [hred], ?_, ?_, ?_, ?_⟩
            · exact (List.nil_sublist _).cons₂ _
            · intro u hu
              have hne : ¬ schemedC c == u := by
                simp only [beq_iff_eq]
                intro he
                rw [he] at hmem
                exact hmem hu
              simp [List.count_cons, hne]
            · intro u _
              rcases hcu : schemedC c == u with _ | _ <;> simp [List.count_cons, hcu]
            · intro hsome
              rw [hred] at hsome
              simp at hsome
          · -- accepted
            have hred : linkLoop oracle (c :: cs) rejects rv text checked
                = linkLoop oracle cs rejects (rv ++ [r])
                    (if i + c.length = (rstrip text).length then replaceAll c text else text)
                    (checked ++ [schemedC c]) := by
              simp [linkLoop, hmem, ho, hst, hfi]
            obtain ⟨ch, h1, h2, h3, h4, h5⟩ := ih rejects (rv ++ [r])
              (if i + c.length = (rstrip text).length then replaceAll c text else text)
              (checked ++ [schemedC c])
            refine ⟨schemedC c :: ch, ?_, h2.cons₂ _, ?_, ?_, ?_⟩
            · rw [hred, h1]; simp
            · intro u hu
              have hne : ¬ schemedC c == u := by
                simp only [beq_iff_eq]
                intro he
                rw [he] at hmem
                exact hmem hu
              rw [List.count_cons]
              simp only [hne, if_false]
              exact h3 u hu
            · intro u hexc
              have hne : ¬ schemedC c == u := by
                simp only [beq_iff_eq]
                intro he
                rw [he, hexc] at ho
                cases ho
              rw [List.count_cons]
              simp only [hne, if_false]
              exact h4 u hexc
            · intro hsome u hu hexc
              rw [List.count_cons, List.map_cons, List.count_cons]
              have he5 := h5 (by rw [← hred]; exact hsome) u hu hexc
              omega
        · -- status >= 400: rejected but not recorded in `rejects`
          have hred : linkLoop oracle (c :: cs) rejects rv text checked
              = linkLoop oracle cs rejects rv text (checked ++ [schemedC c]) := by
            simp [linkLoop, hmem, ho, hst]
          obtain ⟨ch, h1, h2, h3, h4, h5⟩ := ih rejects rv text (checked ++ [schemedC c])
          refine ⟨schemedC c :: ch, ?_, h2.cons₂ _, ?_, ?_, ?_⟩
          · rw [hred, h1]; simp
          · intro u hu
            have hne : ¬ schemedC c == u := by
              simp only [beq_iff_eq]
              intro he
              rw [he] at hmem
              exact hmem hu
            rw [List.count_cons]
            simp only [hne, if_false]
            exact h3 u hu
          · intro u hexc
            have hne : ¬ schemedC c == u := by
              simp only [beq_iff_eq]
              intro he
              rw [he, hexc] at ho
              cases ho
            rw [List.count_cons]
            simp only [hne, if_false]
            exact h4 u hexc
          · intro hsome u hu hexc
            rw [List.count_cons, List.map_cons, List.count_cons]
            have he5 := h5 (by rw [← hred]; exact hsome) u hu hexc
            omega

/-- C8 counterexample: in `"ab.cd ab.cd"` with a 200 response, the duplicate
URL is HEAD-checked twice in a single call — only candidates rejected by an
exception enter the `rejects` set, accepted (or status-rejected) duplicates
are re-checked. -/
theorem C8_link_checks_counterexample :
    (find_links (fun u => HeadOutcome.resp ⟨200, none, u⟩)
        ['a','b','.','c','d',' ','a','b','.','c','d']).2.count
        ['h','t','t','p',':','/','/','a','b','.','c','d'] = 2 := by
  decide

/-- C8 amended: within one invocation candidates are processed in reverse
textual order (the check log is a subsequence of the reversed schemed
candidate list); a URL whose check raised is never re-checked (at most one
HEAD per such URL); but a URL whose checks do not raise is checked once per
occurrence — acceptance or a >= 400 status does not suppress re-checking. -/
theorem C8_link_checks_amended :
    (∀ (oracle : List Char → HeadOutcome) (text : List Char),
      List.Sublist (find_links oracle text).2 ((linkCandidates text).reverse.map schemedC))
    ∧ (∀ (oracle : List Char → HeadOutcome) (text : List Char) (u : List Char),
      oracle u = HeadOutcome.exc → (find_links oracle text).2.count u ≤ 1)
    ∧ (∀ (oracle : List Char → HeadOutcome) (text : List Char) (u : List Char),
      (find_links oracle text).1.isSome = true → oracle u ≠ HeadOutcome.exc →
      (find_links oracle text).2.count u
        = ((linkCandidates text).reverse.map schemedC).count u) := by
  refine ⟨fun oracle text => ?_, fun oracle text u hexc => ?_,
    fun oracle text u hsome hexc => ?_⟩
  all_goals
    obtain ⟨ch, h1, h2, h3, h4, h5⟩ :=
      linkLoop_checked_spec oracle (linkCandidates text).reverse [] [] text []
  all_goals
    have he : (find_links oracle text).2 = ch := by
      unfold find_links
      rw [h1]
      simp
  · rw [he]; exact h2
  · rw [he]; exact h4 u hexc
  · rw [he]
    refine h5 ?_ u (by simp) hexc
    unfold find_links at hsome
    exact hsome

/-- Witness for C8 amended: on `"ab.cd ab.cd"`, an always-raising oracle
checks the URL once, and a 200 oracle checks it once per occurrence. -/
theorem C8_link_checks_witness :
    (find_links (fun _ => HeadOutcome.exc)
        ['a','b','.','c','d',' ','a','b','.','c','d']).2.count
        ['h','t','t','p',':','/','/','a','b','.','c','d'] ≤ 1
    ∧ (find_links (fun u => HeadOutcome.resp ⟨200, none, u⟩)
        ['a','b','.','c','d',' ','a','b','.','c','d']).2.count
        ['h','t','t','p',':','/','/','a','b','.','c','d']
      = ((linkCandidates ['a','b','.','c','d',' ','a','b','.','c','d']).reverse.map
          schemedC).count ['h','t','t','p',':','/','/','a','b','.','c','d'] := by
  constructor
  · exact C8_link_checks_amended.2.1 _ _ _ (by rfl)
  · exact C8_link_checks_amended.2.2 _ _ _ (by decide) (by decide)

/-- C7 counterexample: a metadata-fetch failure is *not* recovered —
`g.extract(url=link.url)` is unguarded, so with a link that HEAD-checks fine
(200, `text/html`) but whose page extraction fails, `process_attachments`
raises to its caller. -/
theorem C7_link_errors_counterexample :
    processAttachments (fun _ => none)
      (fun u => HeadOutcome.resp ⟨200, some ['t','e','x','t','/','h','t','m','l'], u⟩)
      (fun _ => .error ()) ⟨0, [], [], []⟩ ['x',' ','a','b','.','c','d']
      = .error PAErr.gooseErr := by
  rfl

/-- C7 amended: failures of the link *existence check* are recovered locally
— with an oracle where every HEAD raises, `find_links` returns normally with
no accepted links, the text unchanged, and every distinct candidate URL
still attempted (processing continued past each failure).  A failure of the
*metadata fetch*, by contrast, propagates out of `process_attachments`. -/
theorem C7_link_errors_amended :
    (∀ (oracle : List Char → HeadOutcome) (text : List Char),
      (∀ u, oracle u = HeadOutcome.exc) →
      find_links oracle text
        = (some ([], text), dedupAux (linkCandidates text).reverse []))
    ∧ (∀ (idO : List Char → Option Nat) (headO : List Char → HeadOutcome)
        (goose : List Char → Except Unit Page) (s : PerceptStore) (t : List Char)
        (tags : List (List Char)) (text1 : List Char) (l : HeadResp)
        (ls : List HeadResp) (text2 : List Char),
        find_tags t = some (tags, text1) →
        (find_links headO text1).1 = some (l :: ls, text2) →
        ¬ (l.contentType.map fun ct => ct.take 5) = some ['i','m','a','g','e'] →
        goose l.url = .error () →
        processAttachments idO headO goose s t = .error PAErr.gooseErr) := by
  constructor
  · intro oracle text hall
    unfold find_links
    rw [linkLoop_all_exc hall]
    rfl
  · intro idO headO goose s t tags text1 l ls text2 htags hlinks hct hgoose
    simp only [processAttachments, htags, hlinks]
    simp only [linkPerceptLoop, if_neg hct, hgoose]

/-- Witness for C7 amended: on `"ab.cd ab.cd"` with an always-raising
oracle, `find_links` returns no links and the original text, having tried
the one distinct URL; and a concrete failing metadata fetch propagates. -/
theorem C7_link_errors_witness :
    find_links (fun _ => HeadOutcome.exc) ['a','b','.','c','d',' ','a','b','.','c','d']
      = (some ([], ['a','b','.','c','d',' ','a','b','.','c','d']),
         dedupAux (linkCandidates ['a','b','.','c','d',' ','a','b','.','c','d']).reverse [])
    ∧ processAttachments (fun _ => none)
        (fun u => HeadOutcome.resp ⟨200, some ['t','e','x','t','/','h','t','m','l'], u⟩)
        (fun _ => .error ()) ⟨3, [], [], []⟩ ['y',' ','a','b','.','c','d']
      = .error PAErr.gooseErr := by
  constructor
  · exact C7_link_errors_amended.1 _ _ (fun u => rfl)
  · exact C7_link_errors_amended.2 _ _ _ _ _ [] ['y',' ','a','b','.','c','d']
      ⟨200, some ['t','e','x','t','/','h','t','m','l'],
        ['h','t','t','p',':','/','/','a','b','.','c','d']⟩
      [] ['y',' '] (by rfl) (by rfl) (by decide) (by rfl)

end Nucleus
